import Mathlib

/-!
Verification development for `build-litterature-system.py`, a pipeline that
synchronizes a Zotero bibliographic export with per-item Markdown annotation
documents and derives CSV indices from the merged result.

Texts are modelled as `List Char` (`Str`), matching Python string semantics
character by character.  Python `dict`s (insertion-ordered, update-in-place)
are modelled as association lists over `Str` keys.  The PyYAML calls
(`yaml.safe_dump(_, sort_keys=False)` / `yaml.safe_load`) are modelled by a
restricted codec covering block mappings whose values are plain scalars or
block sequences of plain scalars, which is the format the script reads and
writes; parse failure is `Option.none` (the script catches the exception).

Note: the repository source file is itself stored mojibake-encoded, so the
runtime Python strings genuinely contain sequences such as "IdÃ©e centrale"
and markers such as "# ðŸ§­ Overview" (including a soft hyphen U+00AD).  The
constants below reproduce those exact code points.
-/

/-- Texts are lists of characters, as in Python a `str` is a sequence of
code points. -/
abbrev Str := List Char

/-- Characters of a Lean string literal, used to write concrete texts. -/
def s2c (s : String) : Str := s.data

/-- Python `str.isspace`-style whitespace set used by `str.strip()` and by
the regex class `\s` (ASCII part; the texts handled here contain no
non-ASCII whitespace). -/
def pyWs (c : Char) : Bool :=
  c == ' ' || c == '\t' || c == '\n' || c == '\x0d' || c == '\x0b' || c == '\x0c'

/-- Python `s.lstrip()` restricted to whitespace: drop leading whitespace. -/
def pyLstrip (s : Str) : Str := s.dropWhile pyWs

/-- Python `s.rstrip()`: drop trailing whitespace. -/
def pyRstrip (s : Str) : Str := (s.reverse.dropWhile pyWs).reverse

/-- Python `s.strip()`: drop surrounding whitespace. -/
def pyStrip (s : Str) : Str := pyRstrip (pyLstrip s)

/-- Python `s.lstrip("\n")`: drop leading newline characters only. -/
def lstripNL (s : Str) : Str := s.dropWhile (· == '\n')

/-- Python `s.strip(chars)` for an explicit character set. -/
def pyStripChars (cs : List Char) (s : Str) : Str :=
  ((s.dropWhile (cs.contains ·)).reverse.dropWhile (cs.contains ·)).reverse

/-- `strStarts pat s` holds when `pat` is a leading segment of `s`
(Python `s.startswith(pat)`). -/
def strStarts : Str → Str → Bool
  | [], _ => true
  | _ :: _, [] => false
  | c :: cs, d :: ds => c == d && strStarts cs ds

/-- Split at the first occurrence of `pat` (nonempty): returns the text
before the occurrence and the text after it, or `none` when `pat` does not
occur.  This is the single step of Python `str.split(pat)`. -/
def splitSub (pat : Str) : Str → Option (Str × Str)
  | [] => none
  | c :: rest =>
    if strStarts pat (c :: rest) then some ([], (c :: rest).drop pat.length)
    else match splitSub pat rest with
      | some (a, b) => some (c :: a, b)
      | none => none

/-- Python `content.split(pat, 2)`: at most two splits, the remainder is the
last element. -/
def pySplit2 (pat : Str) (s : Str) : List Str :=
  match splitSub pat s with
  | none => [s]
  | some (a, r) =>
    match splitSub pat r with
    | none => [a, r]
    | some (b, r2) => [a, b, r2]

/-- Split a text at every occurrence of a separator character (Python
`s.split(sep)` for a one-character separator): `"a_b"` gives
`["a", "b"]`, a trailing separator yields a final empty element. -/
def splitCh (sep : Char) : Str → List Str
  | [] => [[]]
  | c :: rest =>
    if c == sep then [] :: splitCh sep rest
    else match splitCh sep rest with
      | l :: ls => (c :: l) :: ls
      | [] => [[c]]

/-- Split a text into its lines at `'\n'` (Python `s.split("\n")`). -/
def splitNL : Str → List Str := splitCh '\n'

/-- Rejoin lines, terminating every line with `'\n'`. -/
def linesText (ls : List Str) : Str := ls.flatMap (fun l => l ++ ['\n'])

/-- Join lines with `'\n'` separators (inverse of `splitNL`). -/
def joinNL : List Str → Str
  | [] => []
  | [l] => l
  | l :: ls => l ++ '\n' :: joinNL ls

-- === Python dict model ===

/-- YAML-representable metadata values occurring in this pipeline: plain
strings, lists of strings, integers (the `issued` year) and Python `None`. -/
inductive YamlValue where
  | s (v : Str)
  | l (vs : List Str)
  | i (n : Int)
  | null
deriving DecidableEq, Repr

/-- A Python dict of metadata: insertion-ordered association list. -/
abbrev Metadata := List (Str × YamlValue)

/-- Python `d.get(k)` on an insertion-ordered dict: the value at `k`, if
present (first binding). -/
def aGet (m : List (Str × α)) (k : Str) : Option α :=
  (m.find? (fun kv => kv.1 == k)).map (·.2)

/-- Python `d[k] = v` on an insertion-ordered dict: update in place when
the key exists (keeping its position), otherwise append the new binding at
the end. -/
def aSet (m : List (Str × α)) (k : Str) (v : α) : List (Str × α) :=
  if m.any (fun kv => kv.1 == k) then
    m.map (fun kv => if kv.1 == k then (k, v) else kv)
  else m ++ [(k, v)]

/-- Python `k in d` on an insertion-ordered dict. -/
def aHas (m : List (Str × α)) (k : Str) : Bool := m.any (fun kv => kv.1 == k)

/-- The key list of a dict, in order. -/
def aKeys (m : List (Str × α)) : List Str := m.map (·.1)

/-- `d.get(k)` on a metadata dict. -/
def dictGet (m : Metadata) (k : Str) : Option YamlValue := aGet m k

/-- `d[k] = v` on a metadata dict. -/
def dictSet (m : Metadata) (k : Str) (v : YamlValue) : Metadata := aSet m k v

/-- `k in d` on a metadata dict. -/
def dictHas (m : Metadata) (k : Str) : Bool := aHas m k

/-- The key list of a metadata dict, in order. -/
def dictKeys (m : Metadata) : List Str := aKeys m

-- === PyYAML model (restricted) ===

/-- The characters `{}` (written via code points to keep them out of string
literals). -/
def bracePair : Str := [Char.ofNat 123, Char.ofNat 125]

/-- The lines `yaml.safe_dump(entry)` emits for one mapping entry with
`sort_keys=False, allow_unicode=True`: `key: value` for a plain scalar,
`key: []` for an empty sequence, otherwise `key:` followed by one `- item`
line per element.  Integers print in decimal and `None` prints as `null`. -/
def entryLines : Str × YamlValue → List Str
  | (k, .s v) => [k ++ ':' :: ' ' :: v]
  | (k, .l []) => [k ++ s2c ": []"]
  | (k, .l vs) => (k ++ [':']) :: vs.map (fun v => '-' :: ' ' :: v)
  | (k, .i n) => [k ++ ':' :: ' ' :: (toString n).data]
  | (k, .null) => [k ++ s2c ": null"]

/-- All lines of `yaml.safe_dump(m, sort_keys=False)` for a nonempty `m`. -/
def dumpLines (m : Metadata) : List Str := m.flatMap entryLines

/-- `yaml.safe_dump(m, sort_keys=False, allow_unicode=True)`: the empty
mapping serializes to the flow form, otherwise one block per entry; the
dump always ends in a newline. -/
def yamlSafeDump (m : Metadata) : Str :=
  match m with
  | [] => bracePair ++ ['\n']
  | _ => linesText (dumpLines m)

/-- Leading `"- "` marker of a block-sequence item line. -/
def dashItem (l : Str) : Bool := strStarts (s2c "- ") l

/-- Close a pending block sequence into a finished entry. -/
def flushSeq : Option (Str × List Str) → Metadata
  | none => []
  | some (k, items) => [(k, YamlValue.l items)]

/-- Parser for the restricted YAML subset written by `yamlSafeDump`:
blank lines are skipped, `key: value` lines give scalars (with `[]` the
empty sequence and `null` the `None` value), a line ending in `:` opens a
block sequence of `- item` lines, and anything else is a parse error
(`none`), standing for the `YAMLError` that `yaml.safe_load` raises on
input outside this subset.  `pending` carries a block sequence under
construction. -/
def parseYL (pending : Option (Str × List Str)) : List Str → Option Metadata
  | [] => some (flushSeq pending)
  | l :: rest =>
    if l == [] then parseYL pending rest
    else if dashItem l then
      match pending with
      | some (k, items) => parseYL (some (k, items ++ [l.drop 2])) rest
      | none => none
    else if l == bracePair then
      if pending == none && rest.all (fun r => r == []) then some [] else none
    else match splitSub (s2c ": ") l with
      | some (k, v) =>
        if v == s2c "[]" then
          (parseYL none rest).map (fun t => flushSeq pending ++ (k, YamlValue.l []) :: t)
        else if v == s2c "null" then
          (parseYL none rest).map (fun t => flushSeq pending ++ (k, YamlValue.null) :: t)
        else (parseYL none rest).map (fun t => flushSeq pending ++ (k, YamlValue.s v) :: t)
      | none =>
        if l.getLast? == some ':' then
          (parseYL (some (l.dropLast, [])) rest).map (fun t => flushSeq pending ++ t)
        else none

/-- `yaml.safe_load` on a frontmatter block: split into lines and parse;
`none` models a raised `YAMLError`. -/
def yamlSafeLoad (s : Str) : Option Metadata := parseYL none (splitNL s)

-- === Frontmatter codec (source: load_frontmatter / write_frontmatter) ===

/-- The frontmatter delimiter `---`. -/
def fmDelim : Str := ['-', '-', '-']

/-- Model of `load_frontmatter` (source lines 113-129): if the raw text
starts with `---`, split on the first two occurrences of `---`
(`content.split("---", 2)`); when that yields three parts, the middle part
is parsed as YAML (a parse failure yields the empty mapping, mirroring the
`except` clause together with `or {}`) and the third part with leading
newlines stripped is the body.  Otherwise the metadata is empty and the
whole text is the body. -/
def load_frontmatter (content : Str) : Metadata × Str :=
  if strStarts fmDelim content then
    match pySplit2 fmDelim content with
    | [_, yamlBlock, rest] => ((yamlSafeLoad yamlBlock).getD [], lstripNL rest)
    | _ => ([], content)
  else ([], content)

/-- Model of `write_frontmatter` (source lines 132-135): the raw document is
`f"---\n{yaml_block}---\n\n{body.strip()}\n"` where `yaml_block` is the YAML
dump right-stripped with a single newline restored. -/
def write_frontmatter (metadata : Metadata) (body : Str) : Str :=
  fmDelim ++ '\n' :: (pyRstrip (yamlSafeDump metadata) ++ ['\n'])
    ++ fmDelim ++ '\n' :: '\n' :: (pyStrip body ++ ['\n'])

-- quick sanity checks (concrete evaluation of the codec)
example :
    load_frontmatter (write_frontmatter [(s2c "id", .s (s2c "A1"))] (s2c "hello")) =
      ([(s2c "id", .s (s2c "A1"))], s2c "hello" ++ ['\n']) := by decide

example :
    load_frontmatter (write_frontmatter [] (s2c "hello")) =
      ([], s2c "hello" ++ ['\n']) := by decide

example : load_frontmatter (s2c "no frontmatter here") = ([], s2c "no frontmatter here") := by
  decide

-- === Decimal numerals (Python str(n) / int(s) on digit strings) ===

/-- Decimal digit characters of `n`, most significant first, accumulated
into `acc`; `fuel` bounds the recursion (any `fuel > n` is enough). -/
def natCharsGo : Nat → Nat → Str → Str
  | 0, _, acc => acc
  | fuel + 1, n, acc =>
    if n < 10 then Char.ofNat (48 + n) :: acc
    else natCharsGo fuel (n / 10) (Char.ofNat (48 + n % 10) :: acc)

/-- Python `str(n)` for a natural number: decimal, no leading zeros. -/
def natChars (n : Nat) : Str := natCharsGo (n + 1) n []

/-- Python `int(s)` on a string of decimal digits. -/
def charsToNat (s : Str) : Nat := s.foldl (fun a c => a * 10 + (c.toNat - 48)) 0

-- === String maps with string values (Python dicts of extracted text) ===

/-- A Python dict from strings to strings (insertion-ordered). -/
abbrev FieldMap := List (Str × Str)

/-- Python `d.get(k)` on a text-valued dict. -/
def fGet (m : FieldMap) (k : Str) : Option Str := aGet m k

/-- Python `k in d` on a text-valued dict. -/
def fHas (m : FieldMap) (k : Str) : Bool := aHas m k

/-- Python `d[k] = v` on a text-valued dict: update in place, else append. -/
def fSet (m : FieldMap) (k : Str) (v : Str) : FieldMap := aSet m k v

/-- The key list of a text-valued dict, in order. -/
def fKeys (m : FieldMap) : List Str := aKeys m

-- === Registered field and section names (source lines 39-61) ===
-- The source file is mojibake-encoded, so the runtime strings genuinely
-- contain the code-point sequences reproduced below (for example
-- U+00C3 U+00A9 where an accented e was intended).

/-- The apostrophe character (U+0027). -/
def apos : Char := Char.ofNat 39

/-- `CUSTOM_FIELDS`: the registered qualitative-analysis field names for
articles and conferences. -/
def CUSTOM_FIELDS : List Str := [
  s2c "Classement",
  s2c "Champs de recherche",
  s2c "Objet de recherche",
  s2c "Niveau d" ++ apos :: s2c "analyse",
  s2c "IdÃ©e centrale",
  s2c "MÃ©thodologie",
  s2c "Type de papier",
  s2c "Taille Ã©chantillon",
  s2c "Zone gÃ©ographique",
  s2c "HypothÃ¨ses (explicites / implicites)",
  s2c "RÃ©sultats",
  s2c "Pistes de recherche"]

/-- Marker of the book Overview section: `"# ðŸ§­ Overview"` — the mojibake
code points U+00F0 U+0178 U+00A7 U+00AD (the last is a soft hyphen). -/
def markerOverview : Str :=
  '#' :: ' ' :: [Char.ofNat 0xF0, Char.ofNat 0x178, Char.ofNat 0xA7, Char.ofNat 0xAD]
    ++ ' ' :: s2c "Overview"

/-- Marker of the book Key Concepts section (code points U+00F0 U+0178
U+2014 U+00EF U+00B8). -/
def markerKeyConcepts : Str :=
  '#' :: ' ' :: [Char.ofNat 0xF0, Char.ofNat 0x178, Char.ofNat 0x2014, Char.ofNat 0xEF,
    Char.ofNat 0xB8] ++ ' ' :: s2c "Key Concepts"

/-- Marker of the book Theoretical Contributions section (code points
U+00F0 U+0178 U+00A7 U+00A9). -/
def markerTheoretical : Str :=
  '#' :: ' ' :: [Char.ofNat 0xF0, Char.ofNat 0x178, Char.ofNat 0xA7, Char.ofNat 0xA9]
    ++ ' ' :: s2c "Theoretical Contributions"

/-- Marker of the book Intellectual Lineage section (code points U+00F0
U+0178 U+00A7 U+00A0, the last a no-break space). -/
def markerLineage : Str :=
  '#' :: ' ' :: [Char.ofNat 0xF0, Char.ofNat 0x178, Char.ofNat 0xA7, Char.ofNat 0xA0]
    ++ ' ' :: s2c "Intellectual Lineage"

/-- Marker of the book Implications section (code points U+00F0 U+0178
U+201C U+02C6). -/
def markerImplications : Str :=
  '#' :: ' ' :: [Char.ofNat 0xF0, Char.ofNat 0x178, Char.ofNat 0x201C, Char.ofNat 0x2C6]
    ++ ' ' :: s2c "Implications / Open Questions"

/-- `BOOK_SECTIONS`: CSV column key and heading marker of each named book
section. -/
def BOOK_SECTIONS : List (Str × Str) := [
  (s2c "overview", markerOverview),
  (s2c "key_concepts", markerKeyConcepts),
  (s2c "theoretical_contribution", markerTheoretical),
  (s2c "intellectual_lineage", markerLineage),
  (s2c "implications", markerImplications)]

-- === Template generators (source lines 139-156) ===

/-- Model of `build_article_body_template`: `"\n".join` of one
`f"# {field}\n\n"` block per registered field — note the level-1 heading
marker `# `. -/
def build_article_body_template : Str :=
  joinNL (CUSTOM_FIELDS.map (fun f => '#' :: ' ' :: (f ++ ['\n', '\n'])))

-- === Section extraction (source lines 160-215) ===
-- The extraction regexes are modelled line by line.  A body is split at
-- newlines and each line is paired with a flag telling whether it is
-- terminated by a newline in the original text (every line but the last
-- is).  The models below reproduce the behavior of the source regexes as
-- exercised on line-structured documents, including: a heading line's
-- trailing `\s*\n` absorbing subsequent whitespace-only lines; the first
-- non-blank line after a heading being part of its content even when it
-- looks like a boundary (the boundary lookaheads all require a preceding
-- newline inside the lazily-grown content group); and heading matches
-- requiring the heading line to be newline-terminated.  Not replicated
-- (possible only on degenerate inputs): a `\s+`/`\s*` run inside a heading
-- pattern crossing a newline and taking the heading text or the section
-- marker from two different source lines.

/-- Pair each line with `true` iff it is terminated by a newline (all but
the last element of `splitNL`). -/
def markLines : List Str → List (Str × Bool)
  | [] => []
  | [l] => [(l, false)]
  | l :: l2 :: rest => (l, true) :: markLines (l2 :: rest)

/-- ASCII lowercasing of a text (models `re.IGNORECASE` on the ASCII
letters appearing in the patterns used here). -/
def lowerStr (s : Str) : Str := s.map Char.toLower

/-- The heading name captured by `^##\s+(.+?)\s*\n` on one line: after
`##` at least one whitespace character and at least one non-whitespace
character must follow; the captured name is the rest of the line with
surrounding whitespace removed. -/
def h2Heading : Str → Option Str
  | '#' :: '#' :: c :: r =>
    if pyWs c && !((c :: r).all pyWs) then some (pyStrip (c :: r)) else none
  | _ => none

/-- Match start for the custom-fields pattern: only a newline-terminated
line can head a match (the pattern requires a trailing `\n`). -/
def h2Head (l : Str) (t : Bool) : Option Str := if t then h2Heading l else none

/-- The lookahead `(?=\n##\s+)` tested at a line: `##` followed by a
whitespace character, which may be the line's own newline terminator when
the line is exactly `##`. -/
def h2Boundary (l : Str) (t : Bool) : Bool :=
  match l with
  | '#' :: '#' :: c :: _ => pyWs c
  | ['#', '#'] => t
  | _ => false

/-- The lookahead `(?=\n#\s)` tested at a line: `#` followed by a
whitespace character, which may be the line's own newline terminator when
the line is exactly `#`. -/
def topBoundary (l : Str) (t : Bool) : Bool :=
  match l with
  | '#' :: '#' :: _ => false
  | '#' :: c :: _ => pyWs c
  | ['#'] => t
  | _ => false

/-- Generic model of `finditer` for the heading-plus-lazy-content patterns:
`head` recognizes a match start on a line, `isB` the content-terminating
lookahead.  The state holds the open match's captured key, its content
lines, and a freshness flag: while fresh, whitespace-only lines are
absorbed by the heading's trailing `\s*` and the first substantial line is
consumed into the content unconditionally. -/
def reScan (head : Str → Bool → Option α) (isB : Str → Bool → Bool) :
    Option (α × List Str × Bool) → List (Str × Bool) → List (α × Str)
  | none, [] => []
  | some (h, ls, _), [] => [(h, pyStrip (joinNL ls))]
  | none, (l, t) :: rest =>
    match head l t with
    | some h2 => reScan head isB (some (h2, [], true)) rest
    | none => reScan head isB none rest
  | some (h, ls, true), (l, _) :: rest =>
    if l.all pyWs then reScan head isB (some (h, ls, true)) rest
    else reScan head isB (some (h, ls ++ [l], false)) rest
  | some (h, ls, false), (l, t) :: rest =>
    if isB l t then
      (h, pyStrip (joinNL ls)) ::
        (match head l t with
         | some h2 => reScan head isB (some (h2, [], true)) rest
         | none => reScan head isB none rest)
    else reScan head isB (some (h, ls ++ [l], false)) rest

/-- Model of `parse_custom_fields` (source lines 160-173): start from every
registered field mapped to the empty string, then walk the matches of
`^##\s+(.+?)\s*\n([\s\S]*?)(?=(?:\n##\s+)|\Z)` in order, keeping a match's
stripped content only when its heading is a registered field (later
matches overwrite earlier ones). -/
def parse_custom_fields (body : Str) : FieldMap :=
  (reScan h2Head h2Boundary none (markLines (splitNL body))).foldl
    (fun data m => if fHas data m.1 then fSet data m.1 m.2 else data)
    (CUSTOM_FIELDS.map (fun f => (f, [])))

-- sanity checks against the Python regex behavior
example :
    parse_custom_fields (s2c "## Classement\nbon\n## RÃ©sultats\nnet\n") =
      fSet (fSet (CUSTOM_FIELDS.map (fun f => (f, []))) (s2c "Classement") (s2c "bon"))
        (s2c "RÃ©sultats") (s2c "net") := by decide

example :
    fGet (parse_custom_fields (s2c "## Classement\nun\n## Classement\ndeux"))
      (s2c "Classement") = some (s2c "deux") := by decide

example :
    fGet (parse_custom_fields (s2c "## Classement\n## Type de papier\nx"))
      (s2c "Classement") = some (s2c "## Type de papier\nx") := by decide

/-- Match start of the chapter pattern `^#\s*Chapter\s*(\d+)\s*\n` on one
line (case-insensitive): a single `#` (a second `#` fails the literal
`Chapter`), optional whitespace, `Chapter`, optional whitespace, at least
one digit, optional whitespace, and the line's newline terminator; the
captured number is the digit run read as a decimal integer. -/
def chapterHead (l : Str) (t : Bool) : Option Nat :=
  if !t then none else
  match l with
  | '#' :: r =>
    let r1 := r.dropWhile pyWs
    if strStarts (s2c "chapter") (lowerStr r1) then
      let r2 := (r1.drop 7).dropWhile pyWs
      if !(r2.takeWhile Char.isDigit == []) && (r2.dropWhile Char.isDigit).all pyWs then
        some (charsToNat (r2.takeWhile Char.isDigit))
      else none
    else none
  | _ => none

/-- The lookahead `(?=\n##\s*Chapter\s*\d+\s*\n)` tested at a line: `##`,
optional whitespace, `Chapter` (case-insensitive), optional whitespace, a
digit run, optional whitespace, and the line's newline terminator. -/
def chapterBoundaryA (l : Str) (t : Bool) : Bool :=
  t && match l with
  | '#' :: '#' :: r =>
    let r1 := r.dropWhile pyWs
    strStarts (s2c "chapter") (lowerStr r1) &&
      (let r2 := (r1.drop 7).dropWhile pyWs
       !(r2.takeWhile Char.isDigit == []) && (r2.dropWhile Char.isDigit).all pyWs)
  | _ => false

/-- Content terminator of a chapter match: the next level-2 chapter
heading, or any top-level heading, or end of text. -/
def chapterBoundary (l : Str) (t : Bool) : Bool := chapterBoundaryA l t || topBoundary l t

/-- The Python f-string `f"chapter_{num}"`. -/
def chapterKey (n : Nat) : Str := s2c "chapter_" ++ natChars n

/-- Content of a named-section match (`marker + \s*\n([\s\S]*?)` up to
`(?=(?:\n#\s)|\Z)`): whitespace-only lines straight after the marker are
absorbed by the `\s*`, the first substantial line is consumed
unconditionally, and the content then runs until a top-level heading
line. -/
def sectionContent : List (Str × Bool) → List Str
  | [] => []
  | (l, _) :: rest =>
    if l.all pyWs then sectionContent rest
    else l :: (rest.takeWhile (fun lb => !topBoundary lb.1 lb.2)).map (·.1)

/-- Whether a line carries a named-section marker: the marker itself
(case-insensitively) followed only by whitespace and the line's newline
terminator. -/
def markerAt (marker : Str) (l : Str) (t : Bool) : Bool :=
  t && strStarts (lowerStr marker) (lowerStr l) && (l.drop marker.length).all pyWs

/-- Model of `pattern.search` for a named book section: the first marker
line wins; `none` when the marker never occurs on a line. -/
def findSection (marker : Str) : List (Str × Bool) → Option Str
  | [] => none
  | (l, t) :: rest =>
    if markerAt marker l t then some (pyStrip (joinNL (sectionContent rest)))
    else findSection marker rest

/-- Model of `parse_book_sections_and_chapters` (source lines 177-215):
the five named sections start empty and each is set from the first match
of its marker pattern (`pattern.search`); the chapter matches are walked
in order into a dict keyed `chapter_{num}` (a duplicate number keeps its
first position but the last content); `chapter_1` is synthesized empty
when absent; finally the chapter dict is merged over the named-section
dict (`result.update(chapters)`). -/
def parse_book_sections_and_chapters (body : Str) : FieldMap :=
  let ml := markLines (splitNL body)
  let base : FieldMap := [
    (s2c "overview", []),
    (s2c "key_concepts", []),
    (s2c "theoretical_contribution", []),
    (s2c "intellectual_lineage", []),
    (s2c "implications", [])]
  let result := BOOK_SECTIONS.foldl (fun res km =>
    match findSection km.2 ml with
    | some extracted => fSet res km.1 extracted
    | none => res) base
  let chapters := (reScan chapterHead chapterBoundary none ml).foldl
    (fun ch m => fSet ch (chapterKey m.1) m.2) []
  let chapters2 := if fHas chapters (s2c "chapter_1") then chapters
    else fSet chapters (s2c "chapter_1") []
  chapters2.foldl (fun res kv => fSet res kv.1 kv.2) result

-- sanity checks against the Python regex behavior
example :
    fGet (parse_book_sections_and_chapters
        (joinNL [markerOverview, s2c "content", s2c "# Next", s2c "z"]))
      (s2c "overview") = some (s2c "content") := by decide

example :
    fGet (parse_book_sections_and_chapters
        (joinNL [markerOverview, s2c "A", markerOverview, s2c "B"]))
      (s2c "overview") = some (s2c "A") := by decide

example :
    parse_book_sections_and_chapters (s2c "# Chapter 1\na\n# Chapter 3\nb") =
      [(s2c "overview", []), (s2c "key_concepts", []),
       (s2c "theoretical_contribution", []), (s2c "intellectual_lineage", []),
       (s2c "implications", []),
       (s2c "chapter_1", s2c "a"), (s2c "chapter_3", s2c "b")] := by decide

example :
    fGet (parse_book_sections_and_chapters (s2c "no chapters here"))
      (s2c "chapter_1") = some [] := by decide

example :
    fGet (parse_book_sections_and_chapters
        (s2c "# Chapter 1\na\n# Chapter 1\nlast"))
      (s2c "chapter_1") = some (s2c "last") := by decide

-- === Record normalization (source lines 74-109) ===

/-- Join a list of texts with a separator (Python `sep.join(names)`). -/
def joinSep (sep : Str) : List Str → Str
  | [] => []
  | [x] => x
  | x :: xs => x ++ sep ++ joinSep sep xs

/-- Model of `extract_authors`: each author contributes
`f"{family}, {given}".strip(", ")` and the names are joined with `"; "`;
an empty author list gives the empty string.  An author is a pair
`(given, family)` of the `given`/`family` entries (absent entries default
to the empty string, as with `a.get(..., "")`). -/
def extract_authors (authors : List (Str × Str)) : Str :=
  match authors with
  | [] => []
  | _ => joinSep (s2c "; ")
      (authors.map (fun a => pyStripChars [',', ' '] (a.2 ++ ',' :: ' ' :: a.1)))

/-- One Zotero item as far as `normalize_item` reads it.  `dateParts`
models `item.get("issued", {}).get("date-parts", [[None]])` (it is `none`
when `issued` is present but not a mapping); the other fields model
`item.get(...)` with `none` for an absent key. -/
structure ZoteroItem where
  itemId : Option Str
  itemType : Option Str
  title : Option Str
  author : List (Str × Str)
  dateParts : Option (List (List (Option Int)))
  containerTitle : Option Str
  doi : Option Str
  url : Option Str
  source : Option Str

/-- A possibly-absent string field as a metadata value (`None` when the
key was absent). -/
def optVal : Option Str → YamlValue
  | some v => YamlValue.s v
  | none => YamlValue.null

/-- `date_parts[0][0]` with every `IndexError` caught to `None`. -/
def yearOf : Option (List (List (Option Int))) → Option Int
  | none => none
  | some [] => none
  | some ([] :: _) => none
  | some ((y :: _) :: _) => y

/-- Model of `normalize_item` (source lines 86-109): the normalized
metadata dict, in the insertion order of the source literal.  `now` stands
for `datetime.now().strftime(...)`, passed in explicitly since it is read
from the clock. -/
def normalize_item (item : ZoteroItem) (now : Str) : Metadata :=
  [(s2c "id", optVal item.itemId),
   (s2c "type", optVal item.itemType),
   (s2c "title", YamlValue.s (pyStrip (item.title.getD []))),
   (s2c "authors", YamlValue.s (extract_authors item.author)),
   (s2c "issued", match yearOf item.dateParts with
     | some y => YamlValue.i y
     | none => YamlValue.null),
   (s2c "container_title", optVal item.containerTitle),
   (s2c "DOI", optVal item.doi),
   (s2c "URL", optVal item.url),
   (s2c "source", optVal item.source),
   (s2c "last_updated", YamlValue.s now)]

-- === Metadata merge (source lines 354-375) ===

/-- One iteration of the merge loop in `main` (source lines 358-367):
`last_updated` is always overwritten and always marks the document
changed; any other key is overwritten (and marks the document changed)
exactly when the existing value differs, where an absent key reads as
`None` (`existing_meta.get(k)`). -/
def mergeEntry (acc : Metadata × Bool) (kv : Str × YamlValue) : Metadata × Bool :=
  if kv.1 == s2c "last_updated" then (dictSet acc.1 kv.1 kv.2, true)
  else if !((dictGet acc.1 kv.1).getD YamlValue.null == kv.2) then
    (dictSet acc.1 kv.1 kv.2, true)
  else acc

/-- Model of the merge loop in `main` (source lines 357-367): walk the
incoming items in order, updating the existing metadata and the changed
flag. -/
def mergeMetadata (meta existing_meta : Metadata) : Metadata × Bool :=
  meta.foldl mergeEntry (existing_meta, false)

/-- Model of the existing-document update step in `main` (source lines
354-375): load the document, merge the incoming metadata into its
frontmatter, and rewrite the document through `write_frontmatter` exactly
when the merge marked it changed.  Returns the document's new raw text and
the merged metadata the pipeline continues with. -/
def mergeStep (meta : Metadata) (raw : Str) : Str × Metadata :=
  let loaded := load_frontmatter raw
  let merged := mergeMetadata meta loaded.1
  if merged.2 then (write_frontmatter merged.1 loaded.2, merged.1) else (raw, merged.1)

-- === Existing-file lookup and rename/collision handling (source lines 289-319) ===

/-- A folder of documents: an ordered association of file name to raw
text (the order models the `glob` enumeration order). -/
abbrev Store := List (Str × Str)

/-- Python truthiness of a metadata value. -/
def truthy : YamlValue → Bool
  | .s v => !(v == [])
  | .l vs => !(vs == [])
  | .i n => !(n == 0)
  | .null => false

/-- Python `str(...)` of a metadata value (scalars; the list rendering is
never exercised on ids). -/
def pyStr : YamlValue → Str
  | .s v => v
  | .i n => (toString n).data
  | .null => s2c "None"
  | .l vs => '[' :: joinSep (s2c ", ") vs ++ [']']

/-- Model of the id-matching scan (source lines 296-302): the first file
in the folder whose frontmatter `id` and the item's `id` are both truthy
and agree after `str(...)`. -/
def findExistingFile (folder : Store) (meta : Metadata) : Option Str :=
  folder.findSome? (fun nf =>
    let fm := (load_frontmatter nf.2).1
    let a := (dictGet fm (s2c "id")).getD YamlValue.null
    let b := (dictGet meta (s2c "id")).getD YamlValue.null
    if truthy a && truthy b && pyStr a == pyStr b then some nf.1 else none)

/-- Read a document from a folder (empty text when absent; the modelled
scenarios only read existing documents). -/
def storeRead (st : Store) (k : Str) : Str := ((st.find? (fun kv => kv.1 == k)).map (·.2)).getD []

/-- Rename a document: drop the old entry, append the new name with the
old content. -/
def storeRename (st : Store) (src dst : Str) : Store :=
  match (st.find? (fun kv => kv.1 == src)).map (·.2) with
  | some content => (st.filter (fun kv => !(kv.1 == src))) ++ [(dst, content)]
  | none => st

/-- Model of the rename/collision block of `main` (source lines 304-319),
the branch taken when a document with the item's id was found at
`existingFile` and the freshly derived name is `filepath`.  When the names
differ: if `filepath` already exists a warning is printed (flag `true`)
and no rename happens, otherwise `existingFile` is renamed to `filepath`;
in both cases the file at `filepath` is then loaded, its `path` key is
set, and it is rewritten; finally the file used going forward is
`filepath` whenever it exists, else `existingFile`. -/
def resolveExistingStep (store : Store) (existingFile filepath : Str) :
    Store × Str × Bool :=
  if !(existingFile == filepath) then
    let collides := fHas store filepath
    let store1 := if collides then store else storeRename store existingFile filepath
    let loaded := load_frontmatter (storeRead store1 filepath)
    let em2 := dictSet loaded.1 (s2c "path") (YamlValue.s filepath)
    let store2 := fSet store1 filepath (write_frontmatter em2 loaded.2)
    (store2, (if fHas store2 filepath then filepath else existingFile), collides)
  else (store, (if fHas store filepath then filepath else existingFile), false)

-- === Books index columns (source lines 480-502) ===

/-- One flattened CSV row: a dict from column name to cell text. -/
abbrev RecordRow := List (Str × Str)

/-- Column names of `pd.DataFrame(records)`: the union of the rows' keys
in first-seen order. -/
def firstSeenKeys (records : List RecordRow) : List Str :=
  records.foldl (fun acc r =>
    r.foldl (fun a kv => if a.contains kv.1 then a else a ++ [kv.1]) acc) []

/-- The accumulated `all_book_chapter_keys` set: every key starting with
`chapter_` appearing in some record (first-seen order; the source keeps a
Python set, whose order is immaterial because the keys are sorted by
number afterwards). -/
def allBookChapterKeys (records : List RecordRow) : List Str :=
  records.foldl (fun acc r =>
    r.foldl (fun a kv =>
      if strStarts (s2c "chapter_") kv.1 && !a.contains kv.1 then a ++ [kv.1] else a) acc) []

/-- `int(k.split("_")[1])` on a chapter key. -/
def chapterKeyNum (k : Str) : Nat := charsToNat ((splitCh '_' k).getD 1 [])

/-- The chapter numbers of the accumulated chapter keys, ascending
(`sorted([int(k.split("_")[1]) for k in all_book_chapter_keys ...])`;
Python `sorted` is modelled by insertion sort). -/
def chapterNums (records : List RecordRow) : List Nat :=
  List.insertionSort (· ≤ ·) ((allBookChapterKeys records).map chapterKeyNum)

/-- `chapter_cols = [f"chapter_{n}" for n in chapter_nums]`. -/
def chapterCols (records : List RecordRow) : List Str :=
  (chapterNums records).map chapterKey

/-- `base_cols` of the books CSV (source lines 489-493). -/
def bookBaseCols : List Str :=
  [s2c "id", s2c "title", s2c "authors", s2c "issued", s2c "DOI", s2c "URL",
   s2c "source", s2c "tags", s2c "category", s2c "path", s2c "last_updated",
   s2c "main_thesis", s2c "key_concepts", s2c "theoretical_contribution",
   s2c "intellectual_lineage", s2c "implications"]

/-- The final column order of the books CSV (source lines 494-501): the
DataFrame's columns are the rows' keys extended with any missing chapter
columns; then base columns present in the DataFrame, all chapter columns,
and the residual DataFrame columns, in that order. -/
def booksIndexCols (records : List RecordRow) : List Str :=
  let chCols := chapterCols records
  let dfCols := firstSeenKeys records
    ++ chCols.filter (fun c => !(firstSeenKeys records).contains c)
  (bookBaseCols.filter (fun c => dfCols.contains c)) ++ chCols
    ++ dfCols.filter (fun c => !((bookBaseCols ++ chCols).contains c))

/-- One rendered CSV row: a missing cell (pandas `NaN`) renders as the
empty string. -/
def renderRow (cols : List Str) (r : RecordRow) : List Str :=
  cols.map (fun c => (fGet r c).getD [])

-- sanity check: the chapter_2 column appears for all rows once one book has it
example :
    booksIndexCols [[(s2c "id", s2c "a"), (s2c "chapter_1", s2c "x")],
                    [(s2c "id", s2c "b"), (s2c "chapter_1", s2c "y"),
                     (s2c "chapter_2", s2c "z")]] =
      [s2c "id", s2c "chapter_1", s2c "chapter_2"] := by decide

example :
    renderRow [s2c "id", s2c "chapter_1", s2c "chapter_2"]
        [(s2c "id", s2c "a"), (s2c "chapter_1", s2c "x")] =
      [s2c "a", s2c "x", []] := by decide

-- === Basic lemmas about the text utilities ===

theorem splitCh_ne_nil (sep : Char) : ∀ s : Str, splitCh sep s ≠ []
  | [] => by simp [splitCh]
  | c :: rest => by
    rcases h : c == sep with _ | _
    · have ih := splitCh_ne_nil sep rest
      simp only [splitCh, h, Bool.false_eq_true, if_false]
      rcases hr : splitCh sep rest with _ | ⟨l, ls⟩
      · exact absurd hr ih
      · simp
    · simp [splitCh, h]

theorem splitCh_append (sep : Char) (t : Str) :
    ∀ l : Str, (∀ c ∈ l, (c == sep) = false) →
      splitCh sep (l ++ sep :: t) = l :: splitCh sep t
  | [], _ => by simp [splitCh]
  | c :: l', h => by
    have hc : (c == sep) = false := h c (List.mem_cons_self c l')
    have ih := splitCh_append sep t l' (fun d hd => h d (List.mem_cons_of_mem c hd))
    simp only [List.cons_append, splitCh, hc, Bool.false_eq_true, if_false,
      List.append_eq, ih]

theorem strStarts_append (p t : Str) : strStarts p (p ++ t) = true := by
  induction p with
  | nil => simp [strStarts]
  | cons c p ih => simp [strStarts, ih]

theorem splitSub_of_starts (p s : Str) (hp : p ≠ []) (h : strStarts p s = true) :
    splitSub p s = some ([], s.drop p.length) := by
  cases s with
  | nil =>
    cases p with
    | nil => exact absurd rfl hp
    | cons c cs => simp [strStarts] at h
  | cons c rest => simp [splitSub, h]

/-- No substring of three dashes can start inside the text: every dash is
immediately followed by a non-dash character (in particular the text does
not end in a dash). -/
def dashSafe : Str → Bool
  | [] => true
  | c :: rest =>
    if c == '-' then
      match rest with
      | [] => false
      | d :: _ => !(d == '-') && dashSafe rest
    else dashSafe rest

theorem dashSafe_cons_ne (c : Char) (rest : Str) (h : (c == '-') = false) :
    dashSafe (c :: rest) = dashSafe rest := by
  simp [dashSafe, h]

theorem dashSafe_dash_cons (d : Char) (a : Str) :
    dashSafe ('-' :: d :: a) = (!(d == '-') && dashSafe (d :: a)) := by
  simp [dashSafe]

theorem beq_symm_false {c d : Char} (h : (c == d) = false) : (d == c) = false :=
  beq_eq_false_iff_ne.mpr (Ne.symm (beq_eq_false_iff_ne.mp h))

theorem noDash_dashSafe : ∀ s : Str, (∀ c ∈ s, (c == '-') = false) → dashSafe s = true
  | [], _ => rfl
  | c :: rest, h => by
    rw [dashSafe_cons_ne c rest (h c (List.mem_cons_self c rest))]
    exact noDash_dashSafe rest (fun d hd => h d (List.mem_cons_of_mem c hd))

theorem dashSafe_append : ∀ x y : Str, dashSafe x = true → dashSafe y = true →
    dashSafe (x ++ y) = true
  | [], _, _, hy => hy
  | c :: x', y, hx, hy => by
    rcases hc : c == '-' with _ | _
    · rw [List.cons_append, dashSafe_cons_ne c _ hc]
      rw [dashSafe_cons_ne c _ hc] at hx
      exact dashSafe_append x' y hx hy
    · have hc' : c = '-' := by simpa using hc
      subst hc'
      cases x' with
      | nil => simp [dashSafe] at hx
      | cons d x'' =>
        rw [dashSafe_dash_cons] at hx
        rw [List.cons_append, List.cons_append, dashSafe_dash_cons]
        rw [Bool.and_eq_true] at hx ⊢
        rw [← List.cons_append]
        exact ⟨hx.1, dashSafe_append (d :: x'') y hx.2 hy⟩

theorem splitSub_append_of_dashSafe (tail : Str) :
    ∀ a : Str, dashSafe a = true →
      splitSub fmDelim (a ++ fmDelim ++ tail) = some (a, tail)
  | [], _ => by
    rw [List.nil_append]
    rw [splitSub_of_starts fmDelim (fmDelim ++ tail) (by simp [fmDelim])
      (strStarts_append fmDelim tail)]
    simp [fmDelim]
  | c :: a', h => by
    have key : strStarts fmDelim (c :: (a' ++ fmDelim ++ tail)) = false ∧
        dashSafe a' = true := by
      rcases hc : c == '-' with _ | _
      · have hx : ('-' == c) = false := beq_symm_false hc
        rw [dashSafe_cons_ne c a' hc] at h
        constructor
        · simp [fmDelim, strStarts, hx]
        · exact h
      · have hc' : c = '-' := by simpa using hc
        subst hc'
        cases a' with
        | nil => simp [dashSafe] at h
        | cons d a'' =>
          rw [dashSafe_dash_cons, Bool.and_eq_true, Bool.not_eq_true'] at h
          have hx : ('-' == d) = false := beq_symm_false h.1
          refine ⟨?_, h.2⟩
          simp [fmDelim, strStarts, List.cons_append, hx]
    have ih := splitSub_append_of_dashSafe tail a' key.2
    have hshape : (c :: a') ++ fmDelim ++ tail = c :: (a' ++ fmDelim ++ tail) := by
      simp
    rw [hshape]
    simp only [splitSub, key.1, Bool.false_eq_true, if_false, ih]

theorem dropWhile_head_false (p : Char → Bool) :
    ∀ (s : Str) c r, s.dropWhile p = c :: r → p c = false
  | [], c, r => by simp [List.dropWhile]
  | d :: s', c, r => by
    intro h
    rcases hd : p d with _ | _
    · rw [List.dropWhile_cons, hd] at h
      simp only [Bool.false_eq_true, if_false, List.cons.injEq] at h
      rw [← h.1]
      exact hd
    · rw [List.dropWhile_cons, hd] at h
      simp only [if_true] at h
      exact dropWhile_head_false p s' c r h

theorem pyRstrip_prefix (y : Str) : pyRstrip y <+: y := by
  have h1 : (y.reverse.dropWhile pyWs) <:+ y.reverse := List.dropWhile_suffix pyWs
  have h2 : (y.reverse.dropWhile pyWs).reverse <+: y.reverse.reverse :=
    List.reverse_prefix.mpr h1
  simpa [pyRstrip] using h2

theorem pyStrip_head_not_ws (b : Str) (c : Char) (r : Str)
    (h : pyStrip b = c :: r) : pyWs c = false := by
  obtain ⟨t, ht⟩ := pyRstrip_prefix (pyLstrip b)
  rw [show pyStrip b = pyRstrip (pyLstrip b) from rfl] at h
  rw [h] at ht
  exact dropWhile_head_false pyWs b c (r ++ t) (by simpa [pyLstrip] using ht.symm)

theorem lstripNL_body (S : Str)
    (hS : ∀ c r, S = c :: r → pyWs c = false) :
    lstripNL ('\n' :: '\n' :: (S ++ ['\n'])) =
      (if S = [] then [] else S ++ ['\n']) := by
  cases S with
  | nil => simp [lstripNL, List.dropWhile]
  | cons c S' =>
    have hc : pyWs c = false := hS c S' rfl
    have hcn : (c == '\n') = false := by
      rcases h : c == '\n' with _ | _
      · rfl
      · have : c = '\n' := by simpa using h
        subst this
        simp [pyWs] at hc
    simp [lstripNL, List.dropWhile, hcn]

theorem pyRstrip_concat_newline (x : Str) (c : Char) (h : pyWs c = false) :
    pyRstrip (x ++ [c, '\n']) = x ++ [c] := by
  have : (x ++ [c, '\n']).reverse = '\n' :: c :: x.reverse := by
    simp
  rw [pyRstrip, this]
  rw [List.dropWhile_cons]
  have hn : pyWs '\n' = true := by decide
  rw [hn]
  simp only [if_true, List.dropWhile_cons, h, Bool.false_eq_true, if_false]
  simp

-- === Plain scalars: the domain on which the restricted YAML model is exact ===
-- A plain text is nonempty, uses only alphanumeric characters, spaces and
-- underscores, and neither starts nor ends with a space; a plain string
-- value is additionally not the literal word null.  On mappings built from
-- such texts PyYAML emits exactly the block format of `yamlSafeDump` and
-- `yaml.safe_load` undoes it.

def plainChar (c : Char) : Bool := c.isAlphanum || c == ' ' || c == '_'

def plainTxt (s : Str) : Bool :=
  !(s == []) && s.all plainChar && !(s.head? == some ' ') && !(s.getLast? == some ' ')

def plainVal : YamlValue → Bool
  | .s v => plainTxt v && !(v == s2c "null")
  | .l vs => vs.all (fun v => plainTxt v && !(v == s2c "null"))
  | _ => false

def plainMeta (m : Metadata) : Bool := m.all (fun kv => plainTxt kv.1 && plainVal kv.2)

theorem plainChar_ne_special (c : Char) (h : plainChar c = true) (d : Char)
    (hd : plainChar d = false) : (c == d) = false := by
  rcases he : c == d with _ | _
  · rfl
  · exfalso
    have hcd : c = d := by simpa using he
    rw [hcd, hd] at h
    exact Bool.false_ne_true h

theorem plainChar_not_ws (c : Char) (h : plainChar c = true) (hs : c ≠ ' ') :
    pyWs c = false := by
  rcases hw : pyWs c with _ | _
  · rfl
  · exfalso
    simp only [pyWs, Bool.or_eq_true, beq_iff_eq] at hw
    rcases hw with ((((h1 | h1) | h1) | h1) | h1) | h1 <;> subst h1 <;>
      first
        | exact hs rfl
        | exact absurd h (by decide)

theorem plainTxt_parts (s : Str) (h : plainTxt s = true) :
    s ≠ [] ∧ (∀ c ∈ s, plainChar c = true) ∧ s.getLast? ≠ some ' ' := by
  simp only [plainTxt, Bool.and_eq_true, Bool.not_eq_true', beq_eq_false_iff_ne,
    List.all_eq_true] at h
  exact ⟨h.1.1.1, h.1.1.2, by simpa using h.2⟩

theorem plain_head (s : Str) (h : plainTxt s = true) :
    ∃ c t, s = c :: t ∧ plainChar c = true := by
  obtain ⟨hne, hall, _⟩ := plainTxt_parts s h
  cases s with
  | nil => exact absurd rfl hne
  | cons c t => exact ⟨c, t, rfl, hall c (List.mem_cons_self c t)⟩

theorem plain_last (s : Str) (h : plainTxt s = true) :
    ∃ y c, s = y ++ [c] ∧ pyWs c = false := by
  obtain ⟨hne, hall, hlast⟩ := plainTxt_parts s h
  refine ⟨s.dropLast, s.getLast hne, (List.dropLast_append_getLast hne).symm, ?_⟩
  have hmem := List.getLast_mem hne
  have hsp : s.getLast hne ≠ ' ' := by
    intro hx
    exact hlast (by rw [List.getLast?_eq_getLast s hne, hx])
  exact plainChar_not_ws _ (hall _ hmem) hsp

-- === Line structure of the YAML dump ===

theorem splitNL_linesText : ∀ L : List Str,
    (∀ l ∈ L, ∀ c ∈ l, (c == '\n') = false) →
    splitNL (linesText L) = L ++ [[]]
  | [], _ => by simp [splitNL, linesText, splitCh]
  | l :: L', h => by
    have h1 : ∀ c ∈ l, (c == '\n') = false := h l (List.mem_cons_self l L')
    have ih := splitNL_linesText L' (fun x hx => h x (List.mem_cons_of_mem l hx))
    have hsh : linesText (l :: L') = l ++ '\n' :: linesText L' := by
      simp [linesText]
    simp only [splitNL] at ih ⊢
    rw [hsh, splitCh_append '\n' (linesText L') l h1, ih]
    simp

theorem s2c_dash_space : s2c "- " = ['-', ' '] := rfl

theorem s2c_colon_space : s2c ": " = [':', ' '] := rfl

theorem s2c_brkts : s2c "[]" = ['[', ']'] := rfl

theorem splitSub_colon_space (v : Str) :
    ∀ k : Str, (∀ c ∈ k, (c == ':') = false) →
      splitSub (s2c ": ") (k ++ ':' :: ' ' :: v) = some (k, v)
  | [], _ => by
    simp [splitSub, s2c_colon_space, strStarts]
  | c :: k', h => by
    have hx : (':' == c) = false :=
      beq_symm_false (h c (List.mem_cons_self c k'))
    have ih := splitSub_colon_space v k' (fun d hd => h d (List.mem_cons_of_mem c hd))
    rw [s2c_colon_space] at ih
    simp only [List.cons_append, splitSub, s2c_colon_space, strStarts, hx,
      Bool.false_and, Bool.false_eq_true, if_false, List.append_eq, ih]

theorem splitSub_colon_end :
    ∀ k : Str, (∀ c ∈ k, (c == ':') = false) →
      splitSub (s2c ": ") (k ++ [':']) = none
  | [], _ => by
    simp [splitSub, s2c_colon_space, strStarts]
  | c :: k', h => by
    have hx : (':' == c) = false :=
      beq_symm_false (h c (List.mem_cons_self c k'))
    have ih := splitSub_colon_end k' (fun d hd => h d (List.mem_cons_of_mem c hd))
    rw [s2c_colon_space] at ih
    simp only [List.cons_append, splitSub, s2c_colon_space, strStarts, hx,
      Bool.false_and, Bool.false_eq_true, if_false, List.append_eq, ih]

theorem plain_line_checks (c : Char) (t : Str) (hc : plainChar c = true) :
    ((c :: t : Str) == []) = false ∧ dashItem (c :: t) = false ∧
      ((c :: t : Str) == bracePair) = false := by
  refine ⟨by simp, ?_, ?_⟩
  · have hx : ('-' == c) = false :=
      beq_symm_false (plainChar_ne_special c hc '-' (by decide))
    simp [dashItem, s2c_dash_space, strStarts, hx]
  · apply beq_eq_false_iff_ne.mpr
    intro he
    rw [show bracePair = [Char.ofNat 123, Char.ofNat 125] from rfl] at he
    injection he with h1 _
    rw [h1] at hc
    exact absurd hc (by decide)

theorem plainTxt_ne_lit (s : Str) (h : plainTxt s = true) (d : Char) (rest : Str)
    (hd : plainChar d = false) : (s == d :: rest) = false := by
  obtain ⟨c, t, hs, hc⟩ := plain_head s h
  subst hs
  apply beq_eq_false_iff_ne.mpr
  intro he
  injection he with h1 _
  rw [h1] at hc
  rw [hd] at hc
  exact Bool.false_ne_true hc

theorem parseYL_items (k : Str) :
    ∀ (vs : List Str) (acc : List Str) (tail : List Str),
      parseYL (some (k, acc)) ((vs.map (fun v => '-' :: ' ' :: v)) ++ tail) =
        parseYL (some (k, acc ++ vs)) tail
  | [], acc, tail => by simp
  | v :: vs', acc, tail => by
    have hd : dashItem ('-' :: ' ' :: v) = true := by
      simp [dashItem, s2c_dash_space, strStarts]
    have hnil : (('-' :: ' ' :: v : Str) == []) = false := by simp
    have ih := parseYL_items k vs' (acc ++ [v]) tail
    simp only [List.map_cons, List.cons_append, parseYL, hnil, Bool.false_eq_true,
      if_false, hd, if_true, List.append_eq]
    rw [show (('-' :: ' ' :: v : Str).drop 2) = v from rfl]
    rw [ih, List.append_assoc]
    rfl

theorem parseYL_step_scalar (pending : Option (Str × List Str)) (l : Str)
    (rest : List Str) (k v : Str)
    (hn1 : (l == []) = false) (hn2 : dashItem l = false)
    (hn3 : (l == bracePair) = false)
    (hsp : splitSub (s2c ": ") l = some (k, v))
    (hb : (v == s2c "[]") = false) (hnl : (v == s2c "null") = false) :
    parseYL pending (l :: rest) =
      (parseYL none rest).map (fun t => flushSeq pending ++ (k, YamlValue.s v) :: t) := by
  cases l with
  | nil => simp at hn1
  | cons c t =>
    rw [parseYL.eq_def]
    simp only [hn1, hn2, hn3, hsp, hb, hnl, Bool.false_eq_true, if_false]

theorem parseYL_step_elist (pending : Option (Str × List Str)) (l : Str)
    (rest : List Str) (k : Str)
    (hn1 : (l == []) = false) (hn2 : dashItem l = false)
    (hn3 : (l == bracePair) = false)
    (hsp : splitSub (s2c ": ") l = some (k, ['[', ']'])) :
    parseYL pending (l :: rest) =
      (parseYL none rest).map (fun t => flushSeq pending ++ (k, YamlValue.l []) :: t) := by
  cases l with
  | nil => simp at hn1
  | cons c t =>
    rw [parseYL.eq_def]
    simp only [hn1, hn2, hn3, hsp, Bool.false_eq_true, if_false, s2c_brkts,
      BEq.refl, if_true]

theorem parseYL_step_seq (pending : Option (Str × List Str)) (l : Str)
    (rest : List Str)
    (hn1 : (l == []) = false) (hn2 : dashItem l = false)
    (hn3 : (l == bracePair) = false)
    (hsp : splitSub (s2c ": ") l = none)
    (hgl : (l.getLast? == some ':') = true) :
    parseYL pending (l :: rest) =
      (parseYL (some (l.dropLast, [])) rest).map (fun t => flushSeq pending ++ t) := by
  cases l with
  | nil => simp at hn1
  | cons c t =>
    rw [parseYL.eq_def]
    simp only [hn1, hn2, hn3, hsp, hgl, Bool.false_eq_true, if_false, if_true]

theorem parseYL_dumpLines : ∀ (m : Metadata) (pending : Option (Str × List Str)),
    plainMeta m = true →
    parseYL pending (dumpLines m ++ [[]]) = some (flushSeq pending ++ m)
  | [], pending, _ => by
    simp [dumpLines, parseYL]
  | (k, v) :: m', pending, h => by
    have h2 := h
    rw [show plainMeta ((k, v) :: m') = ((plainTxt k && plainVal v) && plainMeta m')
        from rfl, Bool.and_eq_true, Bool.and_eq_true] at h2
    obtain ⟨⟨hk, hv⟩, hm'⟩ := h2
    obtain ⟨c, k0, hkeq, hc⟩ := plain_head k hk
    have hkcolon : ∀ x ∈ k, (x == ':') = false := fun x hx =>
      plainChar_ne_special x ((plainTxt_parts k hk).2.1 x hx) ':' (by decide)
    cases v with
    | i n => simp [plainVal] at hv
    | null => simp [plainVal] at hv
    | s vstr =>
      rw [show plainVal (YamlValue.s vstr) =
          (plainTxt vstr && !(vstr == s2c "null")) from rfl, Bool.and_eq_true,
        Bool.not_eq_true'] at hv
      obtain ⟨hvp, hvnull⟩ := hv
      have hline : dumpLines ((k, YamlValue.s vstr) :: m') ++ [[]] =
          (k ++ ':' :: ' ' :: vstr) :: (dumpLines m' ++ [[]]) := by
        simp [dumpLines, entryLines]
      rw [hline]
      have hLc : k ++ ':' :: ' ' :: vstr = c :: (k0 ++ ':' :: ' ' :: vstr) := by
        rw [hkeq]; rfl
      obtain ⟨hn1, hn2, hn3⟩ := plain_line_checks c (k0 ++ ':' :: ' ' :: vstr) hc
      have hne1 : (vstr == s2c "[]") = false := by
        rw [s2c_brkts]
        exact plainTxt_ne_lit vstr hvp '[' [']'] (by decide)
      rw [parseYL_step_scalar pending _ _ k vstr (hLc ▸ hn1) (hLc ▸ hn2) (hLc ▸ hn3)
        (splitSub_colon_space vstr k hkcolon) hne1 hvnull]
      rw [parseYL_dumpLines m' none hm']
      simp [flushSeq]
    | l vs =>
      cases vs with
      | nil =>
        have hline : dumpLines ((k, YamlValue.l []) :: m') ++ [[]] =
            (k ++ ':' :: ' ' :: ['[', ']']) :: (dumpLines m' ++ [[]]) := by
          simp [dumpLines, entryLines]
          rfl
        rw [hline]
        have hLc : k ++ ':' :: ' ' :: ['[', ']'] =
            c :: (k0 ++ ':' :: ' ' :: ['[', ']']) := by
          rw [hkeq]; rfl
        obtain ⟨hn1, hn2, hn3⟩ := plain_line_checks c (k0 ++ ':' :: ' ' :: ['[', ']']) hc
        rw [parseYL_step_elist pending _ _ k (hLc ▸ hn1) (hLc ▸ hn2) (hLc ▸ hn3)
          (splitSub_colon_space ['[', ']'] k hkcolon)]
        rw [parseYL_dumpLines m' none hm']
        simp [flushSeq]
      | cons v0 vs0 =>
        have hline : dumpLines ((k, YamlValue.l (v0 :: vs0)) :: m') ++ [[]] =
            (k ++ [':']) ::
              (((v0 :: vs0).map (fun v => '-' :: ' ' :: v)) ++ (dumpLines m' ++ [[]])) := by
          simp [dumpLines, entryLines]
        rw [hline]
        have hLc : k ++ [':'] = c :: (k0 ++ [':']) := by
          rw [hkeq]; rfl
        obtain ⟨hn1, hn2, hn3⟩ := plain_line_checks c (k0 ++ [':']) hc
        have hgl : ((k ++ [':'] : Str).getLast? == some ':') = true := by
          rw [List.getLast?_concat]
          rfl
        rw [parseYL_step_seq pending _ _ (hLc ▸ hn1) (hLc ▸ hn2) (hLc ▸ hn3)
          (splitSub_colon_end k hkcolon) hgl]
        rw [List.dropLast_concat]
        rw [parseYL_items k (v0 :: vs0) [] _, List.nil_append]
        rw [parseYL_dumpLines m' (some (k, v0 :: vs0)) hm']
        simp [flushSeq]

theorem s2c_colon_brkts : s2c ": []" = ':' :: ' ' :: ['[', ']'] := rfl

theorem forall_mem_append {P : Char → Prop} {a b : Str}
    (ha : ∀ c ∈ a, P c) (hb : ∀ c ∈ b, P c) : ∀ c ∈ a ++ b, P c := by
  intro c hc
  rcases List.mem_append.mp hc with h | h
  · exact ha c h
  · exact hb c h

theorem plain_no_char (s : Str) (hs : ∀ c ∈ s, plainChar c = true) (d : Char)
    (hd : plainChar d = false) : ∀ c ∈ s, (c == d) = false :=
  fun c hc => plainChar_ne_special c (hs c hc) d hd

theorem plainVal_items (vs : List Str)
    (hv : plainVal (YamlValue.l vs) = true) :
    ∀ v ∈ vs, plainTxt v = true := by
  rw [show plainVal (YamlValue.l vs) =
      (vs.all (fun v => plainTxt v && !(v == s2c "null"))) from by
        cases vs <;> rfl,
    List.all_eq_true] at hv
  intro v hvm
  have := hv v hvm
  rw [Bool.and_eq_true] at this
  exact this.1

theorem entryLines_noNL (k : Str) (v : YamlValue) (hk : plainTxt k = true)
    (hv : plainVal v = true) :
    ∀ l ∈ entryLines (k, v), ∀ c ∈ l, (c == '\n') = false := by
  have hkc := plain_no_char k (plainTxt_parts k hk).2.1 '\n' (by decide)
  cases v with
  | i n => simp [plainVal] at hv
  | null => simp [plainVal] at hv
  | s vstr =>
    rw [show plainVal (YamlValue.s vstr) =
        (plainTxt vstr && !(vstr == s2c "null")) from rfl, Bool.and_eq_true] at hv
    have hvc := plain_no_char vstr (plainTxt_parts vstr hv.1).2.1 '\n' (by decide)
    intro l hl
    simp only [entryLines, List.mem_singleton] at hl
    subst hl
    rw [show k ++ ':' :: ' ' :: vstr = k ++ [':', ' '] ++ vstr from by simp]
    exact forall_mem_append (forall_mem_append hkc (by decide)) hvc
  | l vs =>
    have hitems := plainVal_items vs hv
    cases vs with
    | nil =>
      intro l hl
      simp only [entryLines, List.mem_singleton] at hl
      subst hl
      rw [s2c_colon_brkts,
        show k ++ ':' :: ' ' :: ['[', ']'] = k ++ [':', ' ', '[', ']'] from by simp]
      exact forall_mem_append hkc (by decide)
    | cons v0 vs0 =>
      intro l hl
      rcases List.mem_cons.mp hl with hl1 | hl2
      · subst hl1
        exact forall_mem_append hkc (by decide)
      · rcases List.mem_map.mp hl2 with ⟨v1, hv1, hmap⟩
        subst hmap
        have hv1c := plain_no_char v1
          (plainTxt_parts v1 (hitems v1 hv1)).2.1 '\n' (by decide)
        rw [show ('-' :: ' ' :: v1 : Str) = ['-', ' '] ++ v1 from rfl]
        exact forall_mem_append (by decide) hv1c

theorem dumpLines_noNL (m : Metadata) (hm : plainMeta m = true) :
    ∀ l ∈ dumpLines m, ∀ c ∈ l, (c == '\n') = false := by
  intro l hl
  rcases List.mem_flatMap.mp hl with ⟨e, he, hle⟩
  rw [show plainMeta m = m.all (fun kv => plainTxt kv.1 && plainVal kv.2) from rfl,
    List.all_eq_true] at hm
  have hekv := hm e he
  rw [Bool.and_eq_true] at hekv
  exact entryLines_noNL e.1 e.2 hekv.1 hekv.2 l (by rcases e with ⟨ek, ev⟩; exact hle)

theorem entryLines_lastChar (k : Str) (v : YamlValue) (hv : plainVal v = true) :
    ∀ l ∈ entryLines (k, v), ∃ y c, l = y ++ [c] ∧ pyWs c = false := by
  cases v with
  | i n => simp [plainVal] at hv
  | null => simp [plainVal] at hv
  | s vstr =>
    rw [show plainVal (YamlValue.s vstr) =
        (plainTxt vstr && !(vstr == s2c "null")) from rfl, Bool.and_eq_true] at hv
    obtain ⟨y, c, hyc, hws⟩ := plain_last vstr hv.1
    intro l hl
    simp only [entryLines, List.mem_singleton] at hl
    subst hl
    exact ⟨k ++ ':' :: ' ' :: y, c, by rw [hyc]; simp, hws⟩
  | l vs =>
    have hitems := plainVal_items vs hv
    cases vs with
    | nil =>
      intro l hl
      simp only [entryLines, List.mem_singleton] at hl
      subst hl
      exact ⟨k ++ [':', ' ', '['], ']', by rw [s2c_colon_brkts]; simp, by decide⟩
    | cons v0 vs0 =>
      intro l hl
      rcases List.mem_cons.mp hl with hl1 | hl2
      · subst hl1
        exact ⟨k, ':', rfl, by decide⟩
      · rcases List.mem_map.mp hl2 with ⟨v1, hv1, hmap⟩
        subst hmap
        obtain ⟨y, c, hyc, hws⟩ := plain_last v1 (hitems v1 hv1)
        exact ⟨'-' :: ' ' :: y, c, by rw [hyc]; simp, hws⟩

theorem linesText_lastChar : ∀ L : List Str, L ≠ [] →
    (∀ l ∈ L, ∃ y c, l = y ++ [c] ∧ pyWs c = false) →
    ∃ X c, linesText L = X ++ [c, '\n'] ∧ pyWs c = false
  | [], h, _ => absurd rfl h
  | [l], _, h => by
    obtain ⟨y, c, hyc, hws⟩ := h l (List.mem_singleton.mpr rfl)
    refine ⟨y, c, ?_, hws⟩
    rw [show linesText [l] = l ++ ['\n'] from by simp [linesText], hyc]
    simp
  | l :: l2 :: L', _, h => by
    obtain ⟨X, c, hX, hws⟩ := linesText_lastChar (l2 :: L') (by simp)
      (fun x hx => h x (List.mem_cons_of_mem l hx))
    refine ⟨l ++ ['\n'] ++ X, c, ?_, hws⟩
    rw [show linesText (l :: l2 :: L') = l ++ ['\n'] ++ linesText (l2 :: L')
      from by simp [linesText], hX]
    simp

theorem entryLines_ne_nil (e : Str × YamlValue) : entryLines e ≠ [] := by
  rcases e with ⟨k, v⟩
  cases v with
  | s vstr => simp [entryLines]
  | l vs => cases vs <;> simp [entryLines]
  | i n => simp [entryLines]
  | null => simp [entryLines]

theorem plainMeta_entry (m : Metadata) (hm : plainMeta m = true) :
    ∀ e ∈ m, plainTxt e.1 = true ∧ plainVal e.2 = true := by
  intro e he
  rw [show plainMeta m = m.all (fun kv => plainTxt kv.1 && plainVal kv.2) from rfl,
    List.all_eq_true] at hm
  have := hm e he
  rw [Bool.and_eq_true] at this
  exact this

theorem dump_block_id (m : Metadata) (hm : plainMeta m = true) :
    pyRstrip (yamlSafeDump m) ++ ['\n'] = yamlSafeDump m := by
  cases m with
  | nil => decide
  | cons e m' =>
    have hne : dumpLines (e :: m') ≠ [] := by
      rw [show dumpLines (e :: m') = entryLines e ++ dumpLines m' from by
        simp [dumpLines]]
      intro hx
      exact entryLines_ne_nil e (List.append_eq_nil.mp hx).1
    have hlast : ∀ l ∈ dumpLines (e :: m'), ∃ y c, l = y ++ [c] ∧ pyWs c = false := by
      intro l hl
      rcases List.mem_flatMap.mp hl with ⟨e2, he2, hle⟩
      have hp := plainMeta_entry (e :: m') hm e2 he2
      exact entryLines_lastChar e2.1 e2.2 hp.2 l (by rcases e2 with ⟨ek, ev⟩; exact hle)
    obtain ⟨X, c, hX, hws⟩ := linesText_lastChar (dumpLines (e :: m')) hne hlast
    rw [show yamlSafeDump (e :: m') = linesText (dumpLines (e :: m')) from rfl, hX,
      pyRstrip_concat_newline X c hws]
    simp

theorem entryLines_dashSafe (k : Str) (v : YamlValue) (hk : plainTxt k = true)
    (hv : plainVal v = true) :
    ∀ l ∈ entryLines (k, v), dashSafe (l ++ ['\n']) = true := by
  have hkc := plain_no_char k (plainTxt_parts k hk).2.1 '-' (by decide)
  cases v with
  | i n => simp [plainVal] at hv
  | null => simp [plainVal] at hv
  | s vstr =>
    rw [show plainVal (YamlValue.s vstr) =
        (plainTxt vstr && !(vstr == s2c "null")) from rfl, Bool.and_eq_true] at hv
    have hvc := plain_no_char vstr (plainTxt_parts vstr hv.1).2.1 '-' (by decide)
    intro l hl
    simp only [entryLines, List.mem_singleton] at hl
    subst hl
    apply noDash_dashSafe
    rw [show (k ++ ':' :: ' ' :: vstr) ++ ['\n'] = k ++ [':', ' '] ++ (vstr ++ ['\n'])
      from by simp]
    exact forall_mem_append (forall_mem_append hkc (by decide))
      (forall_mem_append hvc (by decide))
  | l vs =>
    have hitems := plainVal_items vs hv
    cases vs with
    | nil =>
      intro l hl
      simp only [entryLines, List.mem_singleton] at hl
      subst hl
      apply noDash_dashSafe
      rw [s2c_colon_brkts,
        show (k ++ ':' :: ' ' :: ['[', ']']) ++ ['\n'] = k ++ [':', ' ', '[', ']', '\n']
          from by simp]
      exact forall_mem_append hkc (by decide)
    | cons v0 vs0 =>
      intro l hl
      rcases List.mem_cons.mp hl with hl1 | hl2
      · subst hl1
        apply noDash_dashSafe
        rw [show (k ++ [':']) ++ ['\n'] = k ++ [':', '\n'] from by simp]
        exact forall_mem_append hkc (by decide)
      · rcases List.mem_map.mp hl2 with ⟨v1, hv1, hmap⟩
        subst hmap
        have hv1c := plain_no_char v1 (plainTxt_parts v1 (hitems v1 hv1)).2.1 '-' (by decide)
        rw [show ('-' :: ' ' :: v1 : Str) ++ ['\n'] = '-' :: ' ' :: (v1 ++ ['\n'])
          from by simp]
        rw [dashSafe_dash_cons, dashSafe_cons_ne ' ' _ (by decide)]
        have hnod : dashSafe (v1 ++ ['\n']) = true :=
          noDash_dashSafe _ (forall_mem_append hv1c (by decide))
        rw [hnod]
        decide

theorem dashSafe_linesText : ∀ L : List Str,
    (∀ l ∈ L, dashSafe (l ++ ['\n']) = true) → dashSafe (linesText L) = true
  | [], _ => rfl
  | l :: L', h => by
    rw [show linesText (l :: L') = (l ++ ['\n']) ++ linesText L' from by simp [linesText]]
    exact dashSafe_append _ _ (h l (List.mem_cons_self l L'))
      (dashSafe_linesText L' (fun x hx => h x (List.mem_cons_of_mem l hx)))

theorem dump_dashSafe (m : Metadata) (hm : plainMeta m = true) :
    dashSafe (yamlSafeDump m) = true := by
  cases m with
  | nil => decide
  | cons e m' =>
    rw [show yamlSafeDump (e :: m') = linesText (dumpLines (e :: m')) from rfl]
    apply dashSafe_linesText
    intro l hl
    rcases List.mem_flatMap.mp hl with ⟨e2, he2, hle⟩
    have hp := plainMeta_entry (e :: m') hm e2 he2
    exact entryLines_dashSafe e2.1 e2.2 hp.1 hp.2 l (by rcases e2 with ⟨ek, ev⟩; exact hle)

/-- The frontmatter codec round trip on plain metadata: decoding the
encoded document returns the metadata unchanged and the body stripped of
surrounding whitespace with one trailing newline restored (no newline at
all when the stripped body is empty). -/
theorem load_write_frontmatter (m : Metadata) (b : Str) (hm : plainMeta m = true) :
    load_frontmatter (write_frontmatter m b) =
      (m, if pyStrip b = [] then [] else pyStrip b ++ ['\n']) := by
  have hw : write_frontmatter m b =
      fmDelim ++ '\n' :: (yamlSafeDump m ++ fmDelim ++
        '\n' :: '\n' :: (pyStrip b ++ ['\n'])) := by
    rw [write_frontmatter, dump_block_id m hm]
    simp
  have hsafe : dashSafe ('\n' :: yamlSafeDump m) = true := by
    rw [dashSafe_cons_ne '\n' _ (by decide)]
    exact dump_dashSafe m hm
  have h1 : strStarts fmDelim (write_frontmatter m b) = true := by
    rw [hw]
    exact strStarts_append fmDelim _
  have hsp1 : splitSub fmDelim (write_frontmatter m b) =
      some ([], '\n' :: (yamlSafeDump m ++ fmDelim ++
        '\n' :: '\n' :: (pyStrip b ++ ['\n']))) := by
    rw [hw, splitSub_of_starts fmDelim _ (by simp [fmDelim]) (strStarts_append _ _)]
    simp [fmDelim]
  have hsp2 : splitSub fmDelim ('\n' :: (yamlSafeDump m ++ fmDelim ++
      '\n' :: '\n' :: (pyStrip b ++ ['\n']))) =
      some ('\n' :: yamlSafeDump m, '\n' :: '\n' :: (pyStrip b ++ ['\n'])) := by
    have h := splitSub_append_of_dashSafe ('\n' :: '\n' :: (pyStrip b ++ ['\n']))
      ('\n' :: yamlSafeDump m) hsafe
    rw [show ('\n' :: yamlSafeDump m) ++ fmDelim ++ '\n' :: '\n' :: (pyStrip b ++ ['\n'])
        = '\n' :: (yamlSafeDump m ++ fmDelim ++ '\n' :: '\n' :: (pyStrip b ++ ['\n']))
      from by simp] at h
    exact h
  have hload : yamlSafeLoad ('\n' :: yamlSafeDump m) = some m := by
    cases m with
    | nil => decide
    | cons e m' =>
      have hnl := dumpLines_noNL (e :: m') hm
      rw [yamlSafeLoad,
        show yamlSafeDump (e :: m') = linesText (dumpLines (e :: m')) from rfl,
        show splitNL ('\n' :: linesText (dumpLines (e :: m'))) =
          [] :: splitNL (linesText (dumpLines (e :: m'))) from by
            simp [splitNL, splitCh],
        splitNL_linesText _ hnl,
        show parseYL none ([] :: (dumpLines (e :: m') ++ [[]])) =
          parseYL none (dumpLines (e :: m') ++ [[]]) from by
            rw [parseYL.eq_def]
            simp,
        parseYL_dumpLines (e :: m') none hm]
      simp [flushSeq]
  have hbody : lstripNL ('\n' :: '\n' :: (pyStrip b ++ ['\n'])) =
      (if pyStrip b = [] then [] else pyStrip b ++ ['\n']) :=
    lstripNL_body (pyStrip b) (fun c r hr => pyStrip_head_not_ws b c r hr)
  rw [load_frontmatter, if_pos h1]
  rw [pySplit2, hsp1]
  simp only [hsp2, hload, Option.getD_some, hbody]

-- === Dictionary lemmas ===

theorem aGet_map_update (k : Str) (v : α) :
    ∀ m : List (Str × α), aHas m k = true →
      aGet (m.map (fun kv => if kv.1 == k then (k, v) else kv)) k = some v
  | [], h => absurd h (by simp [aHas])
  | (k0, v0) :: m', h => by
    rcases h0 : k0 == k with _ | _
    · have h' : aHas m' k = true := by
        rw [aHas, List.any_cons, h0, Bool.false_or] at h
        exact h
      have ih := aGet_map_update k v m' h'
      simp only [List.map_cons, h0, Bool.false_eq_true, if_false]
      rw [aGet, List.find?_cons_of_neg _ (by simpa using h0)]
      exact ih
    · simp only [List.map_cons, h0, if_true]
      rw [aGet, List.find?_cons_of_pos _ (by simp)]
      rfl

theorem aGet_append_new (k : Str) (v : α) :
    ∀ m : List (Str × α), aHas m k = false →
      aGet (m ++ [(k, v)]) k = some v
  | [], _ => by
    rw [List.nil_append, aGet, List.find?_cons_of_pos _ (by simp)]
    rfl
  | (k0, v0) :: m', h => by
    have hsplit : (k0 == k) = false ∧ aHas m' k = false := by
      rw [aHas, List.any_cons] at h
      constructor
      · rcases h0 : k0 == k with _ | _
        · rfl
        · rw [h0] at h
          simp at h
      · rcases h1 : aHas m' k with _ | _
        · rfl
        · rw [aHas] at h1
          rw [h1] at h
          simp at h
    rw [List.cons_append, aGet, List.find?_cons_of_neg _ (by simpa using hsplit.1)]
    exact aGet_append_new k v m' hsplit.2

theorem aGet_aSet_self (m : List (Str × α)) (k : Str) (v : α) :
    aGet (aSet m k v) k = some v := by
  rw [aSet]
  rcases h : m.any (fun kv => kv.1 == k) with _ | _
  · simp only [Bool.false_eq_true, if_false]
    exact aGet_append_new k v m h
  · simp only [if_true]
    exact aGet_map_update k v m h

theorem find_key_append_ne (k f : Str) (v : α) (hkf : (k == f) = false) :
    ∀ m : List (Str × α),
      List.find? (fun kv => kv.1 == f) (m ++ [(k, v)]) =
        List.find? (fun kv => kv.1 == f) m
  | [] => by
    rw [List.nil_append, List.find?_cons_of_neg _ (by simpa using hkf)]
  | kv :: m' => by
    rcases hkv : kv.1 == f with _ | _
    · rw [List.cons_append, List.find?_cons_of_neg _ (by simpa using hkv),
        List.find?_cons_of_neg _ (by simpa using hkv)]
      exact find_key_append_ne k f v hkf m'
    · rw [List.cons_append, List.find?_cons_of_pos _ (by simpa using hkv),
        List.find?_cons_of_pos _ (by simpa using hkv)]

theorem find_key_map_ne (k f : Str) (v : α) (hkf : (k == f) = false) :
    ∀ m : List (Str × α),
      List.find? (fun kv => kv.1 == f)
          (m.map (fun kv => if kv.1 == k then (k, v) else kv)) =
        List.find? (fun kv => kv.1 == f) m
  | [] => rfl
  | kv :: m' => by
    rcases hkv : kv.1 == k with _ | _
    · simp only [List.map_cons, hkv, Bool.false_eq_true, if_false]
      rcases hf : kv.1 == f with _ | _
      · rw [List.find?_cons_of_neg _ (by simpa using hf),
          List.find?_cons_of_neg _ (by simpa using hf)]
        exact find_key_map_ne k f v hkf m'
      · rw [List.find?_cons_of_pos _ (by simpa using hf),
          List.find?_cons_of_pos _ (by simpa using hf)]
    · have hk1 : kv.1 = k := by simpa using hkv
      have hf : (kv.1 == f) = false := by
        rw [hk1]
        exact hkf
      simp only [List.map_cons, hkv, if_true]
      rw [List.find?_cons_of_neg _ (by simpa using hkf),
        List.find?_cons_of_neg _ (by simpa using hf)]
      exact find_key_map_ne k f v hkf m'

theorem aGet_aSet_ne (m : List (Str × α)) (k f : Str) (v : α)
    (h : (k == f) = false) : aGet (aSet m k v) f = aGet m f := by
  rw [aSet]
  rcases hany : m.any (fun kv => kv.1 == k) with _ | _
  · simp only [Bool.false_eq_true, if_false]
    rw [aGet, aGet, find_key_append_ne k f v h m]
  · simp only [if_true]
    rw [aGet, aGet, find_key_map_ne k f v h m]

theorem aKeys_aSet_of_has (m : List (Str × α)) (k : Str) (v : α)
    (h : aHas m k = true) : aKeys (aSet m k v) = aKeys m := by
  rw [aSet, aHas] at *
  rw [h]
  simp only [if_true, aKeys, List.map_map]
  apply List.map_congr_left
  intro kv _
  rcases hkv : kv.1 == k with _ | _
  · have hne : ¬ kv.1 = k := by simpa using hkv
    simp [hkv, hne]
  · have hk : kv.1 = k := by simpa using hkv
    simp [hkv, hk]

-- === Fold lemmas for the extraction dictionaries ===

/-- The content of the last regex match whose captured key equals `f`. -/
def lastMatch (ms : List (Str × Str)) (f : Str) : Option Str :=
  ((ms.filter (fun m => m.1 == f)).getLast?).map (·.2)

theorem lastMatch_cons (p : Str × Str) (ps : List (Str × Str)) (f : Str) :
    lastMatch (p :: ps) f =
      match lastMatch ps f with
      | some c => some c
      | none => if p.1 == f then some p.2 else none := by
  rw [lastMatch, lastMatch, List.filter_cons]
  rcases hp : p.1 == f with _ | _
  · simp only [hp, Bool.false_eq_true, if_false]
    rcases h2 : ((ps.filter (fun m => m.1 == f)).getLast?) with _ | c
    · simp [h2, hp]
    · simp [h2]
  · simp only [hp, if_true]
    rcases h2 : ps.filter (fun m => m.1 == f) with _ | ⟨q, qs⟩
    · simp [h2, hp]
    · rw [h2, List.getLast?_cons_cons]
      rcases h3 : (q :: qs).getLast? with _ | c
      · simp at h3
      · simp [h3]

theorem lastMatch_none (ms : List (Str × Str)) (f : Str)
    (h : ∀ m ∈ ms, (m.1 == f) = false) : lastMatch ms f = none := by
  rw [lastMatch, List.filter_eq_nil_iff.mpr (by intro a ha; simp [h a ha])]
  rfl

theorem fGet_foldl_fSet (f : Str) :
    ∀ (ps : List (Str × Str)) (data : FieldMap),
      fGet (ps.foldl (fun d p => fSet d p.1 p.2) data) f =
        match lastMatch ps f with
        | some c => some c
        | none => fGet data f
  | [], data => by simp [lastMatch]
  | p :: ps', data => by
    rw [List.foldl_cons, fGet_foldl_fSet f ps' (fSet data p.1 p.2), lastMatch_cons]
    rcases h2 : lastMatch ps' f with _ | c
    · rcases hp : p.1 == f with _ | _
      · simp only [hp, Bool.false_eq_true, if_false]
        exact aGet_aSet_ne data p.1 f p.2 hp
      · have hpe : p.1 = f := by simpa using hp
        simp only [hp, if_true]
        rw [← hpe]
        exact aGet_aSet_self data p.1 p.2
    · rfl

theorem aHas_eq_keys : ∀ (m : List (Str × α)) (f : Str),
    aHas m f = (aKeys m).any (fun x => x == f)
  | [], _ => rfl
  | kv :: m', f => by
    have ih := aHas_eq_keys m' f
    rw [aHas, aKeys] at ih
    rw [aHas, List.any_cons, aKeys, List.map_cons, List.any_cons, ih]

theorem any_beq_of_mem : ∀ (L : List Str) (f : Str), f ∈ L →
    L.any (fun x => x == f) = true
  | [], f, h => absurd h (List.not_mem_nil f)
  | x :: L', f, h => by
    rcases List.mem_cons.mp h with h1 | h2
    · subst h1
      simp [List.any_cons]
    · rw [List.any_cons, any_beq_of_mem L' f h2, Bool.or_true]

theorem not_mem_of_aHas_false (m : List (Str × α)) (k : Str)
    (h : aHas m k = false) : k ∉ aKeys m := by
  intro hmem
  rw [aHas_eq_keys, any_beq_of_mem (aKeys m) k hmem] at h
  exact absurd h (by decide)

theorem aHas_congr_keys (m1 m2 : List (Str × α)) (f : Str)
    (h : aKeys m1 = aKeys m2) : aHas m1 f = aHas m2 f := by
  rw [aHas_eq_keys, aHas_eq_keys, h]

theorem aKeys_cfFold :
    ∀ (ms : List (Str × Str)) (data : FieldMap),
      aKeys (ms.foldl (fun d m => if fHas d m.1 then fSet d m.1 m.2 else d) data) =
        aKeys data
  | [], _ => rfl
  | m :: ms', data => by
    rw [List.foldl_cons, aKeys_cfFold ms' _]
    rcases h : fHas data m.1 with _ | _
    · simp [h]
    · simp only [h, if_true]
      exact aKeys_aSet_of_has data m.1 m.2 h

theorem fGet_cfFold (f : Str) :
    ∀ (ms : List (Str × Str)) (data : FieldMap), fHas data f = true →
      fGet (ms.foldl (fun d m => if fHas d m.1 then fSet d m.1 m.2 else d) data) f =
        match lastMatch ms f with
        | some c => some c
        | none => fGet data f
  | [], data, _ => by simp [lastMatch]
  | m :: ms', data, hf => by
    have hstep : aKeys (if fHas data m.1 then fSet data m.1 m.2 else data) =
        aKeys data := by
      rcases h : fHas data m.1 with _ | _
      · simp [h]
      · simp only [h, if_true]
        exact aKeys_aSet_of_has data m.1 m.2 h
    have hf' : fHas (if fHas data m.1 then fSet data m.1 m.2 else data) f = true := by
      rw [show fHas (if fHas data m.1 then fSet data m.1 m.2 else data) f =
          aHas (if fHas data m.1 then fSet data m.1 m.2 else data) f from rfl,
        aHas_congr_keys _ data f hstep]
      exact hf
    rw [List.foldl_cons, fGet_cfFold f ms' _ hf', lastMatch_cons]
    rcases h2 : lastMatch ms' f with _ | c
    · rcases hp : m.1 == f with _ | _
      · simp only [hp, Bool.false_eq_true, if_false]
        rcases h : fHas data m.1 with _ | _
        · simp [h]
        · simp only [h, if_true]
          exact aGet_aSet_ne data m.1 f m.2 hp
      · have hpe : m.1 = f := by simpa using hp
        simp only [hp, if_true]
        subst hpe
        rw [show fHas data m.1 = true from hf, if_pos rfl]
        exact aGet_aSet_self data m.1 m.2
    · rfl

theorem fGet_init_fields : ∀ (L : List Str) (f : Str), f ∈ L →
    fGet (L.map (fun x => (x, ([] : Str)))) f = some []
  | [], f, h => absurd h (List.not_mem_nil f)
  | x :: L', f, h => by
    rcases hx : x == f with _ | _
    · have h2 : f ∈ L' := by
        rcases List.mem_cons.mp h with h1 | h1
        · exfalso
          rw [h1] at hx
          simp at hx
        · exact h1
      rw [List.map_cons, fGet, aGet, List.find?_cons_of_neg _ (by simpa using hx)]
      exact fGet_init_fields L' f h2
    · rw [List.map_cons, fGet, aGet, List.find?_cons_of_pos _ (by simpa using hx)]
      rfl

theorem aKeys_init_fields (L : List Str) :
    aKeys (L.map (fun x => (x, ([] : Str)))) = L := by
  rw [aKeys, List.map_map]
  exact List.map_id L

theorem fHas_init_fields (L : List Str) (f : Str) (h : f ∈ L) :
    fHas (L.map (fun x => (x, ([] : Str)))) f = true := by
  rw [show fHas (L.map (fun x => (x, ([] : Str)))) f =
      aHas (L.map (fun x => (x, ([] : Str)))) f from rfl,
    aHas_eq_keys, aKeys_init_fields]
  exact any_beq_of_mem L f h

theorem aHas_of_aGet : ∀ (m : List (Str × α)) (k : Str) (c : α),
    aGet m k = some c → aHas m k = true
  | [], k, c, h => by simp [aGet] at h
  | kv :: m', k, c, h => by
    rcases hkv : kv.1 == k with _ | _
    · rw [aGet, List.find?_cons_of_neg _ (by simpa using hkv)] at h
      rw [aHas, List.any_cons, hkv, Bool.false_or]
      exact aHas_of_aGet m' k c h
    · rw [aHas, List.any_cons, hkv, Bool.true_or]

theorem aKeys_aSet_mem (m : List (Str × α)) (k : Str) (v : α) :
    ∀ x ∈ aKeys (aSet m k v), x ∈ aKeys m ∨ x = k := by
  intro x hx
  rw [aSet] at hx
  rcases h : m.any (fun kv => kv.1 == k) with _ | _
  · rw [h] at hx
    simp only [Bool.false_eq_true, if_false, aKeys, List.map_append] at hx
    rcases List.mem_append.mp hx with h1 | h1
    · exact Or.inl h1
    · simp at h1
      exact Or.inr h1
  · rw [h] at hx
    simp only [if_true, aKeys, List.map_map] at hx
    rcases List.mem_map.mp hx with ⟨kv, hkv, hmap⟩
    rcases hk : kv.1 == k with _ | _
    · left
      rw [show (fun x => x.1) ∘ (fun kv => if kv.1 == k then (k, v) else kv) = fun kv =>
          if kv.1 == k then k else kv.1 from by
            funext kv2
            rcases h2 : kv2.1 == k with _ | _
            · have hne : ¬ kv2.1 = k := by simpa using h2
              simp [h2, hne]
            · have heq : kv2.1 = k := by simpa using h2
              simp [h2, heq]] at hmap
      simp only [hk, Bool.false_eq_true, if_false] at hmap
      rw [← hmap]
      exact List.mem_map_of_mem _ hkv
    · right
      rw [show (fun x => x.1) ∘ (fun kv => if kv.1 == k then (k, v) else kv) = fun kv =>
          if kv.1 == k then k else kv.1 from by
            funext kv2
            rcases h2 : kv2.1 == k with _ | _
            · have hne : ¬ kv2.1 = k := by simpa using h2
              simp [h2, hne]
            · have heq : kv2.1 = k := by simpa using h2
              simp [h2, heq]] at hmap
      simp only [hk, if_true] at hmap
      exact hmap.symm

theorem aKeys_aSet_nodup (m : List (Str × α)) (k : Str) (v : α)
    (h : (aKeys m).Nodup) : (aKeys (aSet m k v)).Nodup := by
  rw [aSet]
  rcases hany : m.any (fun kv => kv.1 == k) with _ | _
  · simp only [Bool.false_eq_true, if_false]
    have hnot : k ∉ aKeys m := not_mem_of_aHas_false m k hany
    rw [aKeys, List.map_append]
    simp only [List.map_cons, List.map_nil]
    rw [List.nodup_append]
    refine ⟨h, List.nodup_singleton k, ?_⟩
    intro a ha hak
    rw [List.mem_singleton] at hak
    subst hak
    exact hnot ha
  · simp only [if_true]
    rw [show aKeys (m.map (fun kv => if kv.1 == k then (k, v) else kv)) = aKeys m from by
      have := aKeys_aSet_of_has m k v hany
      rw [aSet, hany, if_pos rfl] at this
      exact this]
    exact h

theorem ne_of_prefix_mismatch (pre k f : Str) (hpk : strStarts pre k = true)
    (hpf : strStarts pre f = false) : (k == f) = false := by
  rcases h : k == f with _ | _
  · rfl
  · have : k = f := by simpa using h
    subst this
    rw [hpk] at hpf
    exact absurd hpf (by simp)

theorem lastMatch_eq_aGet_of_nodup : ∀ (d : FieldMap) (f : Str),
    (aKeys d).Nodup → lastMatch d f = fGet d f
  | [], _, _ => rfl
  | (k0, v0) :: d', f, h => by
    have hn : k0 ∉ aKeys d' ∧ (aKeys d').Nodup := by
      rw [aKeys, List.map_cons, List.nodup_cons] at h
      exact h
    rcases hk : k0 == f with _ | _
    · have hr : fGet ((k0, v0) :: d') f = fGet d' f := by
        rw [fGet, aGet, List.find?_cons_of_neg _ (by simpa using hk)]
        rfl
      rw [lastMatch_cons, lastMatch_eq_aGet_of_nodup d' f hn.2, hr]
      rcases h2 : fGet d' f with _ | c
      · simp [hk]
      · rfl
    · have hke : k0 = f := by simpa using hk
      rw [lastMatch_cons, lastMatch_none d' f ?noMatch]
      · rw [fGet, aGet, List.find?_cons_of_pos _ (by simpa using hk)]
        simp [hk]
      case noMatch =>
        intro p hp
        rcases hpk : p.1 == f with _ | _
        · rfl
        · exfalso
          have hpe : p.1 = f := by simpa using hpk
          apply hn.1
          rw [← hke] at hpe
          rw [← hpe]
          exact List.mem_map_of_mem _ hp

theorem foldl_fSet_keys_pred (P : Str → Prop) :
    ∀ (ps : List (Str × Str)) (data : FieldMap),
      (∀ p ∈ ps, P p.1) → (∀ x ∈ aKeys data, P x) →
      ∀ x ∈ aKeys (ps.foldl (fun d p => fSet d p.1 p.2) data), P x
  | [], _, _, hd => hd
  | p :: ps', data, hp, hd => by
    rw [List.foldl_cons]
    refine foldl_fSet_keys_pred P ps' (fSet data p.1 p.2)
      (fun q hq => hp q (List.mem_cons_of_mem p hq)) ?_
    intro x hx
    rcases aKeys_aSet_mem data p.1 p.2 x hx with h1 | h1
    · exact hd x h1
    · rw [h1]
      exact hp p (List.mem_cons_self p ps')

theorem foldl_fSet_nodup :
    ∀ (ps : List (Str × Str)) (data : FieldMap), (aKeys data).Nodup →
      (aKeys (ps.foldl (fun d p => fSet d p.1 p.2) data)).Nodup
  | [], _, h => h
  | p :: ps', data, h => by
    rw [List.foldl_cons]
    exact foldl_fSet_nodup ps' (fSet data p.1 p.2) (aKeys_aSet_nodup data p.1 p.2 h)

theorem markLines_mem : ∀ (ls : List Str) (lb : Str × Bool),
    lb ∈ markLines ls → lb.1 ∈ ls
  | [], lb, h => absurd h (List.not_mem_nil lb)
  | [l], lb, h => by
    rw [markLines, List.mem_singleton] at h
    rw [h]
    exact List.mem_singleton.mpr rfl
  | l :: l2 :: rest, lb, h => by
    rw [markLines] at h
    rcases List.mem_cons.mp h with h1 | h1
    · rw [h1]
      exact List.mem_cons_self l (l2 :: rest)
    · exact List.mem_cons_of_mem l (markLines_mem (l2 :: rest) lb h1)

theorem reScan_stays_none (head : Str → Bool → Option β) (isB : Str → Bool → Bool) :
    ∀ ls : List (Str × Bool), (∀ lb ∈ ls, head lb.1 lb.2 = none) →
      reScan head isB none ls = []
  | [], _ => rfl
  | (l, t) :: rest, h => by
    have h0 : head l t = none := h (l, t) (List.mem_cons_self _ _)
    rw [reScan.eq_def]
    simp only [h0]
    exact reScan_stays_none head isB rest (fun lb hlb => h lb (List.mem_cons_of_mem _ hlb))

theorem h2Heading_none (l : Str) (h : strStarts ['#', '#'] l = false) :
    h2Heading l = none := by
  cases l with
  | nil => rfl
  | cons c l1 =>
    cases l1 with
    | nil =>
      rw [h2Heading.eq_def]
      split
      · rename_i heq
        exfalso
        simp at heq
      · rfl
    | cons d l2 =>
      rw [h2Heading.eq_def]
      split
      · rename_i heq
        exfalso
        injection heq with e1 rest1
        injection rest1 with e2 _
        subst e1
        subst e2
        simp [strStarts] at h
      · rfl

theorem h2Head_none (l : Str) (t : Bool) (h : strStarts ['#', '#'] l = false) :
    h2Head l t = none := by
  rw [h2Head]
  cases t
  · rfl
  · simp only [if_true]
    exact h2Heading_none l h

theorem fGet_secFold (ml : List (Str × Bool)) (f : Str) :
    ∀ (secs : List (Str × Str)) (res : FieldMap),
      (∀ s ∈ secs, (s.1 == f) = false) →
      fGet (secs.foldl (fun r km =>
        match findSection km.2 ml with
        | some e => fSet r km.1 e
        | none => r) res) f = fGet res f
  | [], _, _ => rfl
  | km :: secs', res, h => by
    rw [List.foldl_cons,
      fGet_secFold ml f secs' _ (fun s hs => h s (List.mem_cons_of_mem km hs))]
    rcases hfs : findSection km.2 ml with _ | e
    · simp [hfs]
    · simp only [hfs]
      exact aGet_aSet_ne res km.1 f e (h km (List.mem_cons_self km secs'))

-- === Merge lemmas ===

theorem mergeFold_true : ∀ (l : Metadata) (acc : Metadata × Bool), acc.2 = true →
    (l.foldl mergeEntry acc).2 = true
  | [], _, h => h
  | kv :: l', acc, h => by
    rw [List.foldl_cons]
    apply mergeFold_true l'
    rw [mergeEntry]
    rcases h1 : kv.1 == s2c "last_updated" with _ | _
    · simp only [h1, Bool.false_eq_true, if_false]
      rcases h2 : !((dictGet acc.1 kv.1).getD YamlValue.null == kv.2) with _ | _
      · simp [h2, h]
      · simp [h2]
    · simp [h1]

theorem mergeMetadata_dirty (meta existing : Metadata) (v : YamlValue)
    (h : (s2c "last_updated", v) ∈ meta) :
    (mergeMetadata meta existing).2 = true := by
  obtain ⟨l1, l2, hsplit⟩ := List.append_of_mem h
  rw [mergeMetadata, hsplit, List.foldl_append, List.foldl_cons]
  apply mergeFold_true
  rw [mergeEntry]
  simp

theorem aSet_mem_preserved (m : List (Str × α)) (k : Str) (v : α) (kv : Str × α)
    (hne : (kv.1 == k) = false) (hm : kv ∈ m) : kv ∈ aSet m k v := by
  rw [aSet]
  rcases h : m.any (fun x => x.1 == k) with _ | _
  · simp only [Bool.false_eq_true, if_false]
    exact List.mem_append_left _ hm
  · simp only [if_true]
    have h2 := List.mem_map_of_mem (fun x => if x.1 == k then (k, v) else x) hm
    have hfk : (fun x : Str × α => if x.1 == k then (k, v) else x) kv = kv := by
      simp only [hne, Bool.false_eq_true, if_false]
    rw [hfk] at h2
    exact h2

theorem aHas_false_forall : ∀ (m : List (Str × α)) (k : Str), aHas m k = false →
    ∀ kv ∈ m, (kv.1 == k) = false
  | [], _, _, kv, h => absurd h (List.not_mem_nil kv)
  | kv0 :: m', k, hh, kv, h => by
    rw [aHas, List.any_cons] at hh
    have h0 : (kv0.1 == k) = false := by
      rcases hx : kv0.1 == k with _ | _
      · rfl
      · rw [hx] at hh
        simp at hh
    have h1 : aHas m' k = false := by
      rcases hx : m'.any (fun x => x.1 == k) with _ | _
      · rw [aHas]
        exact hx
      · rw [hx] at hh
        simp at hh
    rcases List.mem_cons.mp h with h2 | h2
    · rw [h2]
      exact h0
    · exact aHas_false_forall m' k h1 kv h2

theorem mergeFold_get (k : Str) : ∀ (meta : Metadata) (acc : Metadata × Bool),
    (∀ kv ∈ meta, (kv.1 == k) = false) →
    dictGet (meta.foldl mergeEntry acc).1 k = dictGet acc.1 k
  | [], _, _ => rfl
  | kv :: meta', acc, h => by
    rw [List.foldl_cons,
      mergeFold_get k meta' _ (fun x hx => h x (List.mem_cons_of_mem kv hx))]
    have hne := h kv (List.mem_cons_self kv meta')
    rw [mergeEntry]
    rcases h1 : kv.1 == s2c "last_updated" with _ | _
    · rcases h2 : !((dictGet acc.1 kv.1).getD YamlValue.null == kv.2) with _ | _
      · simp [h1, h2]
      · simp only [h1, Bool.false_eq_true, if_false, h2, if_true]
        exact aGet_aSet_ne acc.1 kv.1 k kv.2 hne
    · simp only [h1, if_true]
      exact aGet_aSet_ne acc.1 kv.1 k kv.2 hne

/-- Lines 349-351 of `main`: the folder category and the file path are
written into the normalized metadata before the merge. -/
def enrichMeta (meta : Metadata) (category path : Str) : Metadata :=
  dictSet (dictSet meta (s2c "category") (YamlValue.s category)) (s2c "path")
    (YamlValue.s path)

-- === Claims ===

/-- Claim C9 (confirmed).  Malformed-frontmatter recovery: decoding is a
total function, and whenever the raw text begins with the delimiter, the
two-split succeeds, and the structured block fails to parse, the decoder
returns the empty metadata mapping together with the body (the third part
with leading newlines stripped), so processing can continue. -/
theorem claim_C9_malformed_recovery (content p0 yb rest : Str)
    (h1 : strStarts fmDelim content = true)
    (h2 : pySplit2 fmDelim content = [p0, yb, rest])
    (h3 : yamlSafeLoad yb = none) :
    load_frontmatter content = ([], lstripNL rest) := by
  rw [load_frontmatter, if_pos h1, h2]
  simp only [h3, Option.getD_none]

/-- Witness for C9 at a concrete malformed document: a `%` directive line
inside the frontmatter block is a YAML scanner error, and the decoder
returns empty metadata and the body. -/
theorem claim_C9_witness :
    load_frontmatter (s2c "---\n%\n---\nbody") = ([], s2c "body") := by
  have h := claim_C9_malformed_recovery (s2c "---\n%\n---\nbody") []
    ('\n' :: '%' :: ['\n']) (s2c "\nbody") (by decide) (by decide) (by decide)
  exact h.trans (by decide)

/-- Claim C1 (counterexample).  The round-trip law as stated is false: the
decoded body is not `b.strip()` — the codec appends a trailing newline. -/
theorem claim_C1_counterexample :
    load_frontmatter (write_frontmatter [(s2c "id", YamlValue.s (s2c "A1"))]
        (s2c "hello")) ≠
      ([(s2c "id", YamlValue.s (s2c "A1"))], pyStrip (s2c "hello")) := by
  decide

/-- Claim C1 (amended).  Frontmatter round trip: for every metadata mapping
with plain string or list-of-string values and every body text, decoding
the document produced by encoding returns the metadata unchanged together
with the body stripped of surrounding whitespace and terminated by one
newline (empty when the stripped body is empty). -/
theorem claim_C1_roundtrip (m : Metadata) (b : Str) (hm : plainMeta m = true) :
    load_frontmatter (write_frontmatter m b) =
      (m, if pyStrip b = [] then [] else pyStrip b ++ ['\n']) :=
  load_write_frontmatter m b hm

/-- Witness for C1 at a concrete mapping and body. -/
theorem claim_C1_witness :
    load_frontmatter (write_frontmatter
        [(s2c "id", YamlValue.s (s2c "A1")),
         (s2c "tags", YamlValue.l [s2c "alpha", s2c "beta"])]
        (s2c " notes on the paper ")) =
      ([(s2c "id", YamlValue.s (s2c "A1")),
        (s2c "tags", YamlValue.l [s2c "alpha", s2c "beta"])],
       s2c "notes on the paper" ++ ['\n']) := by
  have h := claim_C1_roundtrip
    [(s2c "id", YamlValue.s (s2c "A1")),
     (s2c "tags", YamlValue.l [s2c "alpha", s2c "beta"])]
    (s2c " notes on the paper ") (by decide)
  exact h.trans (by decide)

/-- Claim C2 (counterexample).  The merge is not byte-preserving on the
body: rewriting the document strips the body's surrounding whitespace, so
a document whose body carries leading blanks is altered by a merge that
only refreshes `last_updated`. -/
theorem claim_C2_counterexample :
    (load_frontmatter
        (mergeStep [(s2c "last_updated", YamlValue.s (s2c "T"))]
          (s2c "---\nid: A1\n---\n\n  hello\n")).1).2 ≠
      (load_frontmatter (s2c "---\nid: A1\n---\n\n  hello\n")).2 := by
  decide

/-- Claim C2 (amended).  Non-destructive merge: a key absent from the
incoming mapping keeps exactly its previous value through the merge, and
the body is passed to the writer unchanged, so the persisted body is the
original body up to stripping surrounding whitespace and restoring one
trailing newline — in particular a body already in that canonical form is
preserved byte for byte. -/
theorem claim_C2_merge (meta existing : Metadata) (body : Str) (k : Str)
    (hk : dictHas meta k = false)
    (hp : plainMeta (mergeMetadata meta existing).1 = true) :
    dictGet (mergeMetadata meta existing).1 k = dictGet existing k ∧
    (load_frontmatter (write_frontmatter (mergeMetadata meta existing).1 body)).2 =
      (if pyStrip body = [] then [] else pyStrip body ++ ['\n']) := by
  constructor
  · rw [mergeMetadata, mergeFold_get k meta _ (aHas_false_forall meta k hk)]
  · rw [load_write_frontmatter _ body hp]

/-- Witness for C2: a user-added `tags` key survives a merge that updates
`title` and `last_updated`, and a canonical body is preserved. -/
theorem claim_C2_witness :
    dictGet (mergeMetadata
        [(s2c "title", YamlValue.s (s2c "New")),
         (s2c "last_updated", YamlValue.s (s2c "T2"))]
        [(s2c "title", YamlValue.s (s2c "Old")),
         (s2c "tags", YamlValue.l [s2c "keep"])]).1 (s2c "tags") =
      some (YamlValue.l [s2c "keep"]) ∧
    (load_frontmatter (write_frontmatter (mergeMetadata
        [(s2c "title", YamlValue.s (s2c "New")),
         (s2c "last_updated", YamlValue.s (s2c "T2"))]
        [(s2c "title", YamlValue.s (s2c "Old")),
         (s2c "tags", YamlValue.l [s2c "keep"])]).1 (s2c "my notes"))).2 =
      s2c "my notes" ++ ['\n'] := by
  have h := claim_C2_merge
    [(s2c "title", YamlValue.s (s2c "New")),
     (s2c "last_updated", YamlValue.s (s2c "T2"))]
    [(s2c "title", YamlValue.s (s2c "Old")),
     (s2c "tags", YamlValue.l [s2c "keep"])]
    (s2c "my notes") (s2c "tags") (by decide) (by decide)
  exact ⟨h.1.trans (by decide), h.2.trans (by decide)⟩

/-- Claim C6 (confirmed).  Always-dirty timestamp: for every normalized
item (with category and path added, as `main` does) and every existing
metadata mapping, the merge reports the document changed — `last_updated`
is unconditionally overwritten and counts as a change — and therefore the
document is rewritten through `write_frontmatter` on every run. -/
theorem claim_C6_always_dirty (item : ZoteroItem) (now category path : Str)
    (existing : Metadata) (raw : Str) :
    (mergeMetadata (enrichMeta (normalize_item item now) category path) existing).2 =
      true ∧
    mergeStep (enrichMeta (normalize_item item now) category path) raw =
      (write_frontmatter
        (mergeMetadata (enrichMeta (normalize_item item now) category path)
          (load_frontmatter raw).1).1 (load_frontmatter raw).2,
       (mergeMetadata (enrichMeta (normalize_item item now) category path)
          (load_frontmatter raw).1).1) := by
  have hmem : (s2c "last_updated", YamlValue.s now) ∈
      enrichMeta (normalize_item item now) category path := by
    rw [enrichMeta, dictSet, dictSet]
    have h0 : (s2c "last_updated", YamlValue.s now) ∈ normalize_item item now := by
      simp [normalize_item]
    have h1 := aSet_mem_preserved (normalize_item item now) (s2c "category")
      (YamlValue.s category) (s2c "last_updated", YamlValue.s now)
      (by show (s2c "last_updated" == s2c "category") = false
          decide) h0
    exact aSet_mem_preserved _ (s2c "path") (YamlValue.s path)
      (s2c "last_updated", YamlValue.s now)
      (by show (s2c "last_updated" == s2c "path") = false
          decide) h1
  constructor
  · exact mergeMetadata_dirty _ existing (YamlValue.s now) hmem
  · have hd := mergeMetadata_dirty
      (enrichMeta (normalize_item item now) category path)
      (load_frontmatter raw).1 (YamlValue.s now) hmem
    rw [mergeStep]
    simp only [hd, if_true]

/-- Claim C3 (amended).  Registered-field completeness: for every body
text the flat-fields extractor returns a mapping whose key list is exactly
`CUSTOM_FIELDS` (so no unregistered heading name ever appears), and a
registered field for which the scan yields no match — in particular one
whose heading never occurs — maps to the empty string.  The claim's other
empty case is false and dropped: a heading with no content before the next
heading does NOT map to the empty string (see the counterexample below). -/
theorem claim_C3_registered_fields (body : Str) :
    fKeys (parse_custom_fields body) = CUSTOM_FIELDS ∧
    ∀ f ∈ CUSTOM_FIELDS,
      lastMatch (reScan h2Head h2Boundary none (markLines (splitNL body))) f = none →
      fGet (parse_custom_fields body) f = some [] := by
  constructor
  · rw [parse_custom_fields,
      show fKeys ((reScan h2Head h2Boundary none (markLines (splitNL body))).foldl
        (fun data m => if fHas data m.1 then fSet data m.1 m.2 else data)
        (CUSTOM_FIELDS.map (fun f => (f, [])))) =
      aKeys ((reScan h2Head h2Boundary none (markLines (splitNL body))).foldl
        (fun data m => if fHas data m.1 then fSet data m.1 m.2 else data)
        (CUSTOM_FIELDS.map (fun f => (f, [])))) from rfl,
      aKeys_cfFold, aKeys_init_fields]
  · intro f hf hnone
    rw [parse_custom_fields,
      fGet_cfFold f _ _ (fHas_init_fields CUSTOM_FIELDS f hf), hnone]
    exact fGet_init_fields CUSTOM_FIELDS f hf

/-- Witness for C3 at a concrete body: an unregistered heading leaves the
key list untouched, and a registered field whose heading is absent maps to
the empty string. -/
theorem claim_C3_witness :
    fKeys (parse_custom_fields (s2c "## Unknown\nx\n## Classement\ny\n")) =
      CUSTOM_FIELDS ∧
    fGet (parse_custom_fields (s2c "## Unknown\nx\n## Classement\ny\n"))
      (s2c "Pistes de recherche") = some [] := by
  have h := claim_C3_registered_fields (s2c "## Unknown\nx\n## Classement\ny\n")
  exact ⟨h.1, h.2 (s2c "Pistes de recherche") (by decide) (by decide)⟩

/-- Claim C3 (counterexample).  A registered heading with no content
before the next heading does not map to the empty string: the boundary
lookahead `(?=\n##\s+)` needs a newline inside the lazily-grown content
group, so it cannot fire right after the heading line and the next
heading line is swallowed into the content.  On
`"## Classement\n## Type de papier\nx"` the field `Classement` comes back
as the full following text, not empty. -/
theorem claim_C3_counterexample :
    fGet (parse_custom_fields (s2c "## Classement\n## Type de papier\nx"))
        (s2c "Classement") = some (s2c "## Type de papier\nx") ∧
    fGet (parse_custom_fields (s2c "## Classement\n## Type de papier\nx"))
        (s2c "Classement") ≠ some [] := by
  decide

/-- Claim C10 (confirmed).  Template/extractor heading-level mismatch: the
flat-fields extractor only matches level-2 headings, so on any body none
of whose lines begins with `##` — in particular the generated article
template, whose headings are all level-1, with or without plain content
lines inserted — every registered field comes back as the empty string. -/
theorem claim_C10_template_mismatch (body : Str)
    (h : ∀ l ∈ splitNL body, strStarts ['#', '#'] l = false) :
    parse_custom_fields body = CUSTOM_FIELDS.map (fun f => (f, [])) := by
  rw [parse_custom_fields,
    reScan_stays_none h2Head h2Boundary (markLines (splitNL body))
      (fun lb hlb => h2Head_none lb.1 lb.2 (h lb.1 (markLines_mem _ lb hlb))),
    List.foldl_nil]

/-- Witness for C10: the generated article template itself has no level-2
heading line, and extracting from it returns every registered field empty;
the same holds after inserting a content line under a heading. -/
theorem claim_C10_witness :
    (∀ l ∈ splitNL build_article_body_template, strStarts ['#', '#'] l = false) ∧
    parse_custom_fields build_article_body_template =
      CUSTOM_FIELDS.map (fun f => (f, [])) ∧
    parse_custom_fields (s2c "# Classement\n\nmy notes\n") =
      CUSTOM_FIELDS.map (fun f => (f, [])) :=
  ⟨by decide, claim_C10_template_mismatch build_article_body_template (by decide),
   claim_C10_template_mismatch (s2c "# Classement\n\nmy notes\n") (by decide)⟩

/-- Claim C4 (confirmed).  Chapter synthesis: a book body in which no line
matches the chapter-heading pattern still yields `chapter_1` mapped to the
empty string; and on the body with exactly the chapter headings
`Chapter 1` and `Chapter 3` the output's keys are the five named sections
followed by exactly `chapter_1` and `chapter_3` — no `chapter_2` is
synthesized. -/
theorem claim_C4_chapter_synthesis (body : Str)
    (h : ∀ lb ∈ markLines (splitNL body), chapterHead lb.1 lb.2 = none) :
    fGet (parse_book_sections_and_chapters body) (s2c "chapter_1") = some [] ∧
    fKeys (parse_book_sections_and_chapters (s2c "# Chapter 1\na\n# Chapter 3\nb")) =
      [s2c "overview", s2c "key_concepts", s2c "theoretical_contribution",
       s2c "intellectual_lineage", s2c "implications",
       s2c "chapter_1", s2c "chapter_3"] := by
  refine ⟨?_, by decide⟩
  have hscan : reScan chapterHead chapterBoundary none (markLines (splitNL body)) = [] :=
    reScan_stays_none chapterHead chapterBoundary (markLines (splitNL body)) h
  simp only [parse_book_sections_and_chapters, hscan, List.foldl_nil]
  rw [show fHas ([] : FieldMap) (s2c "chapter_1") = false from rfl]
  simp only [Bool.false_eq_true, if_false]
  rw [show fSet ([] : FieldMap) (s2c "chapter_1") [] =
    [(s2c "chapter_1", ([] : Str))] from rfl, List.foldl_cons, List.foldl_nil]
  exact aGet_aSet_self _ _ _

/-- Witness for C4 at a concrete chapterless body. -/
theorem claim_C4_witness :
    fGet (parse_book_sections_and_chapters (s2c "plain text body"))
      (s2c "chapter_1") = some [] := by
  have h := claim_C4_chapter_synthesis (s2c "plain text body") (by decide)
  exact h.1

-- === Decimal numeral lemmas ===

theorem splitCh_no_sep (sep : Char) : ∀ s : Str, (∀ c ∈ s, (c == sep) = false) →
    splitCh sep s = [s]
  | [], _ => rfl
  | c :: s', h => by
    have hc : (c == sep) = false := h c (List.mem_cons_self c s')
    have ih := splitCh_no_sep sep s' (fun d hd => h d (List.mem_cons_of_mem c hd))
    simp only [splitCh, hc, Bool.false_eq_true, if_false, ih]

theorem charsToNat_shift : ∀ (b : Str) (a0 : Nat),
    b.foldl (fun a c => a * 10 + (c.toNat - 48)) a0 =
      a0 * 10 ^ b.length + charsToNat b
  | [], a0 => by simp [charsToNat]
  | c :: b', a0 => by
    have ih1 := charsToNat_shift b' (a0 * 10 + (c.toNat - 48))
    have ih2 := charsToNat_shift b' (0 * 10 + (c.toNat - 48))
    have hc : charsToNat (c :: b') =
        (c.toNat - 48) * 10 ^ b'.length + charsToNat b' := by
      rw [charsToNat, List.foldl_cons, ih2]
      ring_nf
    rw [List.foldl_cons, ih1, hc, List.length_cons]
    ring

theorem digit_toNat (m : Nat) (h : m < 10) :
    (Char.ofNat (48 + m)).toNat = 48 + m := by
  interval_cases m <;> rfl

theorem natCharsGo_eval : ∀ (fuel n : Nat) (acc : Str), n < 10 ^ fuel →
    charsToNat (natCharsGo fuel n acc) = n * 10 ^ acc.length + charsToNat acc
  | 0, n, acc, h => by
    have h0 : n = 0 := Nat.lt_one_iff.mp (by simpa using h)
    subst h0
    simp [natCharsGo]
  | fuel + 1, n, acc, h => by
    rw [natCharsGo]
    by_cases hn : n < 10
    · rw [if_pos hn]
      have hd : (Char.ofNat (48 + n)).toNat = 48 + n := digit_toNat n hn
      have he : 0 * 10 + ((Char.ofNat (48 + n)).toNat - 48) = n := by
        rw [hd]
        omega
      rw [charsToNat, List.foldl_cons, he, charsToNat_shift acc n]
    · rw [if_neg hn]
      have h10 : n / 10 < 10 ^ fuel := by
        rw [Nat.div_lt_iff_lt_mul (by norm_num)]
        calc n < 10 ^ (fuel + 1) := h
        _ = 10 ^ fuel * 10 := by ring
      rw [natCharsGo_eval fuel (n / 10) _ h10]
      have hd : (Char.ofNat (48 + n % 10)).toNat = 48 + n % 10 :=
        digit_toNat (n % 10) (Nat.mod_lt n (by norm_num))
      have hc : charsToNat (Char.ofNat (48 + n % 10) :: acc) =
          (n % 10) * 10 ^ acc.length + charsToNat acc := by
        have he : 0 * 10 + ((Char.ofNat (48 + n % 10)).toNat - 48) = n % 10 := by
          rw [hd]
          omega
        rw [charsToNat, List.foldl_cons, he, charsToNat_shift acc (n % 10)]
      rw [hc, List.length_cons]
      have key : n / 10 * 10 ^ (acc.length + 1) + n % 10 * 10 ^ acc.length =
          n * 10 ^ acc.length := by
        have hdm : n / 10 * 10 + n % 10 = n := by omega
        calc n / 10 * 10 ^ (acc.length + 1) + n % 10 * 10 ^ acc.length
            = (n / 10 * 10 + n % 10) * 10 ^ acc.length := by ring
        _ = n * 10 ^ acc.length := by rw [hdm]
      omega

theorem charsToNat_natChars (n : Nat) : charsToNat (natChars n) = n := by
  have hlt : n < 10 ^ (n + 1) := by
    calc n < 10 ^ n := Nat.lt_pow_self (by norm_num) n
    _ ≤ 10 ^ (n + 1) := Nat.pow_le_pow_right (by norm_num) (Nat.le_succ n)
  rw [natChars, natCharsGo_eval (n + 1) n [] hlt]
  simp [charsToNat]

theorem natCharsGo_mem : ∀ (fuel n : Nat) (acc : Str) (c : Char),
    c ∈ natCharsGo fuel n acc →
    (∃ m, m < 10 ∧ c = Char.ofNat (48 + m)) ∨ c ∈ acc
  | 0, _, _, _, h => Or.inr h
  | fuel + 1, n, acc, c, h => by
    rw [natCharsGo] at h
    by_cases hn : n < 10
    · rw [if_pos hn] at h
      rcases List.mem_cons.mp h with h1 | h1
      · exact Or.inl ⟨n, hn, h1⟩
      · exact Or.inr h1
    · rw [if_neg hn] at h
      rcases natCharsGo_mem fuel (n / 10) _ c h with h1 | h1
      · exact Or.inl h1
      · rcases List.mem_cons.mp h1 with h2 | h2
        · exact Or.inl ⟨n % 10, Nat.mod_lt n (by norm_num), h2⟩
        · exact Or.inr h2

theorem natChars_no_underscore (n : Nat) :
    ∀ c ∈ natChars n, (c == '_') = false := by
  intro c hc
  rcases natCharsGo_mem (n + 1) n [] c hc with ⟨m, hm, he⟩ | h1
  · subst he
    interval_cases m <;> rfl
  · exact absurd h1 (List.not_mem_nil c)

theorem chapterKeyNum_chapterKey (n : Nat) : chapterKeyNum (chapterKey n) = n := by
  rw [chapterKeyNum, chapterKey,
    show s2c "chapter_" = s2c "chapter" ++ ['_'] by decide, List.append_assoc,
    List.singleton_append,
    splitCh_append '_' (natChars n) (s2c "chapter") (by decide),
    splitCh_no_sep '_' (natChars n) (natChars_no_underscore n)]
  exact charsToNat_natChars n

theorem map_keynum_chapterKey : ∀ l : List Nat,
    (l.map chapterKey).map chapterKeyNum = l
  | [] => rfl
  | n :: l' => by
    rw [List.map_cons, List.map_cons, chapterKeyNum_chapterKey,
      map_keynum_chapterKey l']

-- === Duplicate-heading behavior ===

theorem findSection_first (marker : Str) :
    ∀ (pre : List (Str × Bool)) (l : Str) (t : Bool) (rest : List (Str × Bool)),
      (∀ lb ∈ pre, markerAt marker lb.1 lb.2 = false) →
      markerAt marker l t = true →
      findSection marker (pre ++ (l, t) :: rest) =
        some (pyStrip (joinNL (sectionContent rest)))
  | [], l, t, rest, _, hm => by
    simp only [List.nil_append, findSection, hm, if_true]
  | lb :: pre', l, t, rest, hp, hm => by
    obtain ⟨l0, t0⟩ := lb
    have h0 : markerAt marker l0 t0 = false := hp (l0, t0) (List.mem_cons_self _ _)
    have ih := findSection_first marker pre' l t rest
      (fun x hx => hp x (List.mem_cons_of_mem (l0, t0) hx)) hm
    simp only [List.cons_append, findSection, h0, Bool.false_eq_true, if_false,
      List.append_eq, ih]

theorem chapters_foldl_eq : ∀ (scan : List (Nat × Str)) (init : FieldMap),
    scan.foldl (fun ch m => fSet ch (chapterKey m.1) m.2) init =
      (scan.map (fun m => (chapterKey m.1, m.2))).foldl
        (fun d p => fSet d p.1 p.2) init
  | [], _ => rfl
  | m :: s', init => by
    rw [List.foldl_cons, List.map_cons, List.foldl_cons]
    exact chapters_foldl_eq s' _

theorem fGet_final_chapters (CH result : FieldMap) (k c : Str)
    (hget : fGet CH k = some c) (hnodup : (aKeys CH).Nodup) :
    fGet ((if fHas CH (s2c "chapter_1") then CH
           else fSet CH (s2c "chapter_1") []).foldl
      (fun res kv => fSet res kv.1 kv.2) result) k = some c := by
  rcases hh : fHas CH (s2c "chapter_1") with _ | _
  · simp only [hh, Bool.false_eq_true, if_false]
    have hk1 : ((s2c "chapter_1" : Str) == k) = false := by
      rcases he : (s2c "chapter_1" : Str) == k with _ | _
      · rfl
      · exfalso
        have he2 : (s2c "chapter_1" : Str) = k := by simpa using he
        rw [← he2] at hget
        have hhas : fHas CH (s2c "chapter_1") = true :=
          aHas_of_aGet CH (s2c "chapter_1") c hget
        rw [hhas] at hh
        exact absurd hh (by decide)
    have hget2 : fGet (fSet CH (s2c "chapter_1") []) k = some c := by
      rw [show fGet (fSet CH (s2c "chapter_1") []) k =
          aGet (aSet CH (s2c "chapter_1") []) k from rfl,
        aGet_aSet_ne CH _ k [] hk1]
      exact hget
    have hnodup2 : (aKeys (fSet CH (s2c "chapter_1") [])).Nodup :=
      aKeys_aSet_nodup CH _ [] hnodup
    rw [fGet_foldl_fSet, lastMatch_eq_aGet_of_nodup _ k hnodup2, hget2]
  · simp only [hh, if_true]
    rw [fGet_foldl_fSet, lastMatch_eq_aGet_of_nodup _ k hnodup, hget]

/-- Claim C7 (counterexample).  Duplicate headings are not handled by one
consistent rule: on a book body with two Overview markers the output keeps
the FIRST occurrence's content, while the flat-fields extractor keeps the
LAST occurrence's content for a duplicated registered heading. -/
theorem claim_C7_counterexample :
    fGet (parse_book_sections_and_chapters
        (joinNL [markerOverview, s2c "A", markerOverview, s2c "B"]))
      (s2c "overview") = some (s2c "A") ∧
    fGet (parse_custom_fields (s2c "## Classement\nA\n## Classement\nB"))
      (s2c "Classement") = some (s2c "B") := by
  decide

/-- Claim C7 (amended).  Duplicate-heading behavior, mode by mode: (i) in
the flat-fields extractor the LAST match of a registered heading wins;
(ii) for book chapters the LAST match of a duplicated chapter number
provides the content kept in the output; but (iii) for the named book
sections the FIRST marker occurrence wins (`pattern.search`), so the
last-match rule is not applied consistently across both modes. -/
theorem claim_C7_duplicate_headings :
    (∀ (body f c : Str), f ∈ CUSTOM_FIELDS →
      lastMatch (reScan h2Head h2Boundary none (markLines (splitNL body))) f =
        some c →
      fGet (parse_custom_fields body) f = some c) ∧
    (∀ (body : Str) (n : Nat) (c : Str),
      lastMatch ((reScan chapterHead chapterBoundary none
          (markLines (splitNL body))).map (fun m => (chapterKey m.1, m.2)))
        (chapterKey n) = some c →
      fGet (parse_book_sections_and_chapters body) (chapterKey n) = some c) ∧
    (∀ (marker : Str) (pre : List (Str × Bool)) (l : Str) (t : Bool)
        (rest : List (Str × Bool)),
      (∀ lb ∈ pre, markerAt marker lb.1 lb.2 = false) →
      markerAt marker l t = true →
      findSection marker (pre ++ (l, t) :: rest) =
        some (pyStrip (joinNL (sectionContent rest)))) := by
  refine ⟨?_, ?_, findSection_first⟩
  · intro body f c hf hc
    rw [parse_custom_fields,
      fGet_cfFold f _ _ (fHas_init_fields CUSTOM_FIELDS f hf), hc]
  · intro body n c hc
    have hch : fGet ((reScan chapterHead chapterBoundary none
        (markLines (splitNL body))).foldl
        (fun ch m => fSet ch (chapterKey m.1) m.2) []) (chapterKey n) = some c := by
      rw [chapters_foldl_eq, fGet_foldl_fSet, hc]
    have hnod : (aKeys ((reScan chapterHead chapterBoundary none
        (markLines (splitNL body))).foldl
        (fun ch m => fSet ch (chapterKey m.1) m.2) [])).Nodup := by
      rw [chapters_foldl_eq]
      exact foldl_fSet_nodup _ [] List.nodup_nil
    simp only [parse_book_sections_and_chapters]
    exact fGet_final_chapters _ _ (chapterKey n) c hch hnod

/-- Witness for C7 at concrete duplicated headings in each mode. -/
theorem claim_C7_witness :
    fGet (parse_custom_fields (s2c "## Classement\nun\n## Classement\ndeux"))
      (s2c "Classement") = some (s2c "deux") ∧
    fGet (parse_book_sections_and_chapters
        (s2c "# Chapter 2\nfirst\n# Chapter 2\nlast"))
      (chapterKey 2) = some (s2c "last") ∧
    findSection markerOverview
      ((markerOverview, true) ::
        [(s2c "A", true), (markerOverview, true), (s2c "B", false)]) =
      some (s2c "A") := by
  have h := claim_C7_duplicate_headings
  refine ⟨h.1 _ _ _ (by decide) (by decide), h.2.1 _ 2 _ (by decide), ?_⟩
  have h3 := h.2.2 markerOverview [] markerOverview true
    [(s2c "A", true), (markerOverview, true), (s2c "B", false)] (by decide) (by decide)
  exact h3.trans (by decide)

-- === Filename collision (C5) ===

/-- A folder holding two documents: the item being processed is stored
under `old_name.md` with id `X1`, and a different document with id `Y2`
already occupies the freshly derived name `Doe_Title_2020.md`. -/
def collisionStore : Store := [
  (s2c "Doe_Title_2020.md",
   write_frontmatter [(s2c "id", YamlValue.s (s2c "Y2"))] (s2c "other notes")),
  (s2c "old_name.md",
   write_frontmatter [(s2c "id", YamlValue.s (s2c "X1"))] (s2c "my notes"))]

/-- The rename/collision block run on that folder for the item whose
document is `old_name.md` and whose derived name collides. -/
def collisionOutcome : Store × Str × Bool :=
  resolveExistingStep collisionStore (s2c "old_name.md") (s2c "Doe_Title_2020.md")

/-- Claim C5 (code bug).  On a filename collision with a different
existing document, the code does warn (flag `true`) and skips the rename —
but it does not skip the update: it loads the COLLIDING document, patches
its `path` key and rewrites it (altering that document), and then
continues with the colliding file as the item's document, so the item's
subsequent metadata merge lands in the wrong document.  The claim's
"colliding document left unchanged / update skipped" is refuted. -/
theorem claim_C5_collision_bug :
    dictGet (load_frontmatter
        (storeRead collisionStore (s2c "Doe_Title_2020.md"))).1 (s2c "id") =
      some (YamlValue.s (s2c "Y2")) ∧
    dictGet (load_frontmatter
        (storeRead collisionStore (s2c "old_name.md"))).1 (s2c "id") =
      some (YamlValue.s (s2c "X1")) ∧
    collisionOutcome.2.2 = true ∧
    storeRead collisionOutcome.1 (s2c "Doe_Title_2020.md") ≠
      storeRead collisionStore (s2c "Doe_Title_2020.md") ∧
    dictGet (load_frontmatter
        (storeRead collisionOutcome.1 (s2c "Doe_Title_2020.md"))).1 (s2c "path") =
      some (YamlValue.s (s2c "Doe_Title_2020.md")) ∧
    collisionOutcome.2.1 = s2c "Doe_Title_2020.md" := by
  decide

/-- Claim C8 (confirmed).  Books-index chapter columns: when every
accumulated chapter key is well formed (`chapter_` followed by the decimal
digits of its number), (i) every observed chapter key is a column of the
emitted books table; (ii) the chapter columns sit together, directly after
columns drawn from the preferred base list (which carries the named
sections); (iii) read back as numbers the chapter columns are in ascending
order; and (iv) a row lacking a column's key renders that cell as the
empty string. -/
theorem claim_C8_books_chapter_columns (records : List RecordRow)
    (h : ∀ k ∈ allBookChapterKeys records, k = chapterKey (chapterKeyNum k)) :
    (∀ k ∈ allBookChapterKeys records, k ∈ booksIndexCols records) ∧
    (∃ base resid, booksIndexCols records = base ++ chapterCols records ++ resid ∧
      ∀ cc ∈ base, cc ∈ bookBaseCols) ∧
    List.Sorted (· ≤ ·) ((chapterCols records).map chapterKeyNum) ∧
    (∀ (r : RecordRow) (i : Nat) (c : Str),
      (booksIndexCols records)[i]? = some c → fGet r c = none →
      (renderRow (booksIndexCols records) r)[i]? = some []) := by
  refine ⟨?_, ?_, ?_, ?_⟩
  · intro k hk
    have hkn := h k hk
    have h1 : chapterKeyNum k ∈ (allBookChapterKeys records).map chapterKeyNum :=
      List.mem_map_of_mem chapterKeyNum hk
    have h2 : chapterKeyNum k ∈ chapterNums records := by
      rw [chapterNums]
      exact ((List.perm_insertionSort (· ≤ ·) _).mem_iff).mpr h1
    have h3 : chapterKey (chapterKeyNum k) ∈ chapterCols records := by
      rw [chapterCols]
      exact List.mem_map_of_mem chapterKey h2
    rw [← hkn] at h3
    simp only [booksIndexCols]
    exact List.mem_append_left _ (List.mem_append_right _ h3)
  · refine ⟨bookBaseCols.filter (fun c =>
        (firstSeenKeys records ++ (chapterCols records).filter
          (fun c2 => !(firstSeenKeys records).contains c2)).contains c),
      (firstSeenKeys records ++ (chapterCols records).filter
          (fun c2 => !(firstSeenKeys records).contains c2)).filter
        (fun c => !((bookBaseCols ++ chapterCols records).contains c)),
      rfl, fun cc hcc => List.mem_of_mem_filter hcc⟩
  · rw [chapterCols, map_keynum_chapterKey, chapterNums]
    exact List.sorted_insertionSort (· ≤ ·) _
  · intro r i c hc hn
    rw [renderRow, List.getElem?_map, hc]
    simp [hn]

/-- Witness for C8: with two book rows of which only the second has a
`chapter_2` cell, `chapter_2` is a column of the table and the first row
renders that cell as the empty string. -/
theorem claim_C8_witness :
    s2c "chapter_2" ∈ booksIndexCols
      [[(s2c "id", s2c "a"), (s2c "chapter_1", s2c "x")],
       [(s2c "id", s2c "b"), (s2c "chapter_1", s2c "y"),
        (s2c "chapter_2", s2c "z")]] ∧
    (renderRow (booksIndexCols
        [[(s2c "id", s2c "a"), (s2c "chapter_1", s2c "x")],
         [(s2c "id", s2c "b"), (s2c "chapter_1", s2c "y"),
          (s2c "chapter_2", s2c "z")]])
      [(s2c "id", s2c "a"), (s2c "chapter_1", s2c "x")])[2]? = some [] := by
  have h := claim_C8_books_chapter_columns
    [[(s2c "id", s2c "a"), (s2c "chapter_1", s2c "x")],
     [(s2c "id", s2c "b"), (s2c "chapter_1", s2c "y"),
      (s2c "chapter_2", s2c "z")]] (by decide)
  exact ⟨h.1 (s2c "chapter_2") (by decide),
    h.2.2.2 [(s2c "id", s2c "a"), (s2c "chapter_1", s2c "x")] 2 (s2c "chapter_2")
      (by decide) (by decide)⟩
